import Mathlib

/-!
# mdb: a namespaced string key-value store

Shallow embedding of `src/mdb.go` and a verification of its read/write contracts.

Modelling conventions.

* A Go `map[string]V` is a `GoMap V`: the list of its entries kept with strictly
  ascending keys.  The representation is canonical, so two maps holding the same
  entries are equal.  A Go map has no iteration order of its own: every
  `for k, v := range m` of the source takes a `RangeOrder`, an arbitrary
  enumeration of the entries, and the theorems hold for all of them.
* Go strings are Lean `String`s and Go's `<` on strings is Lean's `<`
  (lexicographic; byte order and code-point order agree on UTF-8 text).
* A method with a pointer receiver that mutates the store returns the new
  store next to its Go results.  The `sync.RWMutex` is not modelled: calls are
  sequential.
* `error` is `Option String`: `none` is Go's `nil`, `some msg` an error with
  text `msg`.
* The file system and the package `encoding/gob` are outside the sources:
  `Open` takes the result of `os.OpenFile` and the codec as parameters, and a
  file handle is the bytes of its file with a flag telling whether it was closed.
* `Close` and the teardown closure of `Open` end with an assignment to a pointer
  variable; their results tell the store of the caller from the store that this
  variable refers to.
-/

namespace Mdb

/-! ## Go maps -/

/-- Go's `error`: `none` is `nil`, `some msg` is an error whose text is `msg`. -/
abbrev error := Option String

/-- Value of `m[k]` on an entry list: the value paired with the first entry whose key is `k`. -/
def lookupEntry {V : Type} (k : String) : List (String × V) → Option V
  | [] => none
  | e :: t => if k = e.1 then some e.2 else lookupEntry k t

/-- Entry list after `m[k] = v`: the entry for `k` is replaced, or inserted at its place in
key order. -/
def insertEntry {V : Type} (k : String) (v : V) : List (String × V) → List (String × V)
  | [] => [(k, v)]
  | e :: t =>
    if k < e.1 then (k, v) :: e :: t
    else if k = e.1 then (k, v) :: t
    else e :: insertEntry k v t

/-! Assignment keeps the keys ascending: needed to state `m[k] = v` on `GoMap`. -/

theorem insertEntry_key_mem {V : Type} (k : String) (v : V) (l : List (String × V))
    (e : String × V) (he : e ∈ insertEntry k v l) : e.1 = k ∨ e ∈ l := by
  induction l with
  | nil =>
    simp only [insertEntry, List.mem_singleton] at he
    exact Or.inl (by rw [he])
  | cons a t ih =>
    simp only [insertEntry] at he
    split_ifs at he with h1 h2
    · rcases List.mem_cons.1 he with h | h
      · exact Or.inl (by rw [h])
      · exact Or.inr h
    · rcases List.mem_cons.1 he with h | h
      · exact Or.inl (by rw [h])
      · exact Or.inr (List.mem_cons_of_mem _ h)
    · rcases List.mem_cons.1 he with h | h
      · exact Or.inr (by rw [h]; exact List.mem_cons_self _ _)
      · rcases ih h with h' | h'
        · exact Or.inl h'
        · exact Or.inr (List.mem_cons_of_mem _ h')

theorem insertEntry_ascending {V : Type} (k : String) (v : V) (l : List (String × V))
    (hl : l.Pairwise (fun a b => a.1 < b.1)) :
    (insertEntry k v l).Pairwise (fun a b => a.1 < b.1) := by
  induction l with
  | nil => simp [insertEntry]
  | cons a t ih =>
    have hat := (List.pairwise_cons.1 hl).1
    have ht := (List.pairwise_cons.1 hl).2
    simp only [insertEntry]
    split_ifs with h1 h2
    · refine List.pairwise_cons.2 ⟨?_, hl⟩
      intro b hb
      rcases List.mem_cons.1 hb with h | h
      · rw [h]; exact h1
      · exact lt_trans h1 (hat b h)
    · refine List.pairwise_cons.2 ⟨?_, ht⟩
      intro b hb
      show k < b.1
      rw [h2]; exact hat b hb
    · refine List.pairwise_cons.2 ⟨?_, ih ht⟩
      intro b hb
      rcases insertEntry_key_mem k v t b hb with h | h
      · rw [h]
        rcases lt_trichotomy k a.1 with h3 | h3 | h3
        · exact absurd h3 h1
        · exact absurd h3 h2
        · exact h3
      · exact hat b h

/-- A Go `map[string]V`: its entries, kept with strictly ascending keys (so keys are unique and
two maps with the same entries are the same value). -/
structure GoMap (V : Type) where
  entries : List (String × V)
  ascending : entries.Pairwise (fun a b => a.1 < b.1)

namespace GoMap

/-- The map literal `map[string]V{}`. -/
def empty {V : Type} : GoMap V := ⟨[], List.Pairwise.nil⟩

/-- Go's `len(m)`. -/
def len {V : Type} (m : GoMap V) : Nat := m.entries.length

/-- Go's `m[k]`: `none` when `k` is not a key of `m` (Go then yields the zero value, which for a
map-typed value is `nil`). -/
def index {V : Type} (m : GoMap V) (k : String) : Option V := lookupEntry k m.entries

/-- Go's `m[k] = v`. -/
def set {V : Type} (m : GoMap V) (k : String) (v : V) : GoMap V :=
  ⟨insertEntry k v m.entries, insertEntry_ascending k v m.entries m.ascending⟩

/-- Go's `delete(m, k)`. -/
def delete {V : Type} (m : GoMap V) (k : String) : GoMap V :=
  ⟨m.entries.filter (fun e => decide (e.1 ≠ k)), m.ascending.filter _⟩

end GoMap

/-- The order in which one `for k, v := range m` visits the entries of a map: Go leaves it
unspecified, so it is any rearrangement of the entries. -/
structure RangeOrder where
  visit : List (String × String) → List (String × String)
  perm : ∀ l, (visit l).Perm l

namespace RangeOrder

/-- Visit the entries by ascending key. -/
def ascending : RangeOrder := ⟨fun l => l, fun l => List.Perm.refl l⟩

/-- Visit the entries by descending key. -/
def descending : RangeOrder := ⟨fun l => l.reverse, fun l => List.reverse_perm l⟩

end RangeOrder

/-! ## Data model (`src/mdb.go`, lines 19-40) -/

/-- Go's `Config`: `Path` is the file path of the store, the empty string for a store kept in
memory only. -/
structure Config where
  Path : String
  deriving DecidableEq, Repr

/-- Go's `KV`: a key-value pair. -/
structure KV where
  Key : String
  Value : String
  deriving DecidableEq, Repr

/-- A bucket, Go's `map[string]string`: the keys and values of one namespace. -/
abbrev Bucket := GoMap String

/-- An open `*os.File`: the bytes the file holds and whether the handle has been closed. -/
structure File where
  bytes : List Nat
  closed : Bool

/-- Go's `DB` (without its lock): `db` maps a namespace to its bucket, `file` is `none` for the
`nil` handle of a store kept in memory. -/
structure DB where
  db : GoMap Bucket
  config : Config
  file : Option File

/-- The package `encoding/gob`, which is not part of this repository: an encoder of the store's
mapping to bytes, and a decoder that reads a stream of bytes into a given mapping. -/
structure Gob where
  Encode : GoMap Bucket → Except String (List Nat)
  Decode : List Nat → GoMap Bucket → Except String (GoMap Bucket)

/-- Go's `defaultConfig()`. -/
def defaultConfig : Config := { Path := "" }

/-- Go's `DefaultConfig`. -/
def DefaultConfig : Config := defaultConfig

/-! ## File handle operations used by the store

An operation on the `nil` handle fails with `os.ErrInvalid`, one on a closed handle with
`os.ErrClosed`; on an open handle the operating system is taken not to fail. -/

namespace File

/-- Go's `f.Stat()`, reduced to the size it reports. -/
def Stat (f : Option File) : Nat × error :=
  match f with
  | none => (0, some "invalid argument")
  | some f => if f.closed then (0, some "file already closed") else (f.bytes.length, none)

/-- Go's `f.WriteAt(b, off)`: overwrites the bytes from offset `off` on, growing the file when
the write ends past its end, and never shortening it. -/
def WriteAt (f : Option File) (b : List Nat) (off : Nat) : Option File × error :=
  match f with
  | none => (none, some "invalid argument")
  | some f =>
    if f.closed then (some f, some "file already closed")
    else
      let old := f.bytes ++ List.replicate (off - f.bytes.length) 0
      (some { f with bytes := old.take off ++ b ++ old.drop (off + b.length) }, none)

/-- Go's `f.Sync()`. -/
def Sync (f : Option File) : error :=
  match f with
  | none => some "invalid argument"
  | some f => if f.closed then some "file already closed" else none

/-- Go's `f.Close()`. -/
def Close (f : Option File) : Option File × error :=
  match f with
  | none => (none, some "invalid argument")
  | some f =>
    if f.closed then (some f, some "file already closed")
    else (some { f with closed := true }, none)

end File

/-! ## Opening a store (`src/mdb.go`, lines 42-86 and 200-237) -/

namespace DB

/-- Go's `(*DB).init`: resets the mapping to empty and writes its encoding at offset zero. -/
def init (gob : Gob) (db : DB) : DB × error :=
  let db := { db with db := GoMap.empty }
  match gob.Encode db.db with
  | .error e => (db, some e)
  | .ok b =>
    match File.WriteAt db.file b 0 with
    | (f, some e) => ({ db with file := f }, some e)
    | (f, none) =>
      let db := { db with file := f }
      match File.Sync db.file with
      | some e => (db, some e)
      | none => (db, none)

/-- Go's `(*DB).load`: initialises a zero-byte file, then decodes the file, read from its
start, into the mapping.  When decoding fails the mapping is returned as it was (`Open` then
drops the store). -/
def load (gob : Gob) (db : DB) : DB × error :=
  match File.Stat db.file with
  | (_, some e) => (db, some e)
  | (size, none) =>
    let r := if size = 0 then init gob db else (db, none)
    match r with
    | (db, some e) => (db, some e)
    | (db, none) =>
      match gob.Decode ((db.file.map File.bytes).getD []) db.db with
      | .error e => (db, some e)
      | .ok m => ({ db with db := m }, none)

end DB

/-- Go's `Open`, without the teardown function it returns second: `osOpenFile path` is the
result of `os.OpenFile(path, os.O_CREATE|os.O_RDWR, 0666)`.  The first component is `none`
for the `nil` store returned next to an error. -/
def Open (osOpenFile : String → Except String File) (gob : Gob) (config : Option Config) :
    Option DB × error :=
  let db : DB :=
    { db := GoMap.empty
      config := match config with
        | none => DefaultConfig
        | some c => c
      file := none }
  if db.config.Path ≠ "" then
    match osOpenFile db.config.Path with
    | .error e => (none, some e)
    | .ok f =>
      let db := { db with file := some f }
      match DB.load gob db with
      | (_, some e) => (none, some e)
      | (db, none) => (some db, none)
  else (some db, none)

/-! ## Reading and writing namespaces (`src/mdb.go`, lines 130-198) -/

/-- The closure handed to `sort.SliceStable` in `GetKV`:
`func(i, j int) bool { return kv[i].Key < kv[j].Key }`, as a function of the two elements. -/
def lessKey (a b : KV) : Bool := decide (a.Key < b.Key)

/-- One step of Go's insertion sort: `x` moves left past every element it is `less` than. -/
def insertLast (less : KV → KV → Bool) (x : KV) : List KV → List KV
  | [] => [x]
  | y :: ys => if less x y then x :: y :: ys else y :: insertLast less x ys

/-- Go's `sort.SliceStable(kv, less)` (package `sort`) as a stable insertion sort: elements are
taken left to right and each is placed behind the elements it is not `less` than.  Go sorts
blocks of the slice this way and merges them stably; the result of a stable sort is fixed by
`less`, so the merge passes change nothing. -/
def SliceStable (kv : List KV) (less : KV → KV → Bool) : List KV :=
  kv.foldl (fun sorted x => insertLast less x sorted) []

/-- Body of the merge loop of `SetMap` and `SetKV`:
`if db.db[s] == nil { db.db[s] = map[string]string{} }; db.db[s][k] = v`. -/
def assignEntry (s : String) (db : DB) (k v : String) : DB :=
  let db :=
    match db.db.index s with
    | none => { db with db := db.db.set s GoMap.empty }
    | some _ => db
  match db.db.index s with
  | none => db
  | some b => { db with db := db.db.set s (b.set k v) }

/-- First loop of `SetKV`: copies `kv` into the temporary map `m`; `none` when a key is already
present in `m` (Go returns the duplicate-key error there). -/
def collectKV : List KV → Bucket → Option Bucket
  | [], m => some m
  | p :: rest, m =>
    match m.index p.Key with
    | none => collectKV rest (m.set p.Key p.Value)
    | some _ => none

namespace DB

/-- Go's `(*DB).GetMap`. `db.db[s]` is `nil` exactly when `s` is not a key of `db.db`. -/
def GetMap (db : DB) (s : String) : Bucket × error :=
  match db.db.index s with
  | none => (GoMap.empty, some "missing")
  | some b =>
    if b.len = 0 then (GoMap.empty, some "missing")
    else (b, none)

/-- Go's `(*DB).GetKV`; `o` is the order in which `range db.db[s]` visits the bucket. -/
def GetKV (o : RangeOrder) (db : DB) (s : String) : List KV × error :=
  match db.db.index s with
  | none => ([], some "missing")
  | some b =>
    if b.len = 0 then ([], some "missing")
    else
      let kv := (o.visit b.entries).foldl (fun kv e => kv ++ [KV.mk e.1 e.2]) []
      (SliceStable kv lessKey, none)

/-- Go's `(*DB).SetMap`; `o` is the order in which `range m` visits `m`.  A `nil` map `m` is
the empty `m`. -/
def SetMap (o : RangeOrder) (db : DB) (s : String) (m : Bucket) : DB × error :=
  ((o.visit m.entries).foldl (fun db e => assignEntry s db e.1 e.2) db, none)

/-- Go's `(*DB).SetKV`; `o` is the order in which `range m` visits the temporary map. -/
def SetKV (o : RangeOrder) (db : DB) (s : String) (kv : List KV) : DB × error :=
  match collectKV kv GoMap.empty with
  | none => (db, some "duplicate key detected")
  | some m => ((o.visit m.entries).foldl (fun db e => assignEntry s db e.1 e.2) db, none)

/-- Go's `(*DB).Delete`. -/
def Delete (db : DB) (s : String) : DB × error :=
  ({ db with db := db.db.delete s }, none)

end DB

/-! ## Vocabulary of the specification and sample data -/

/-- The value of key `k` in the bucket of namespace `ns`: `none` when the namespace or the key
is absent. -/
def DB.value (db : DB) (ns k : String) : Option String :=
  match db.db.index ns with
  | none => none
  | some b => b.index k

/-- The bucket after assigning the entries of `l`, in order, into `b`. -/
def mergeInto (b : Bucket) (l : List (String × String)) : Bucket :=
  l.foldl (fun b e => b.set e.1 e.2) b

/-- The bucket `b` after every entry of `m` has been assigned into it. -/
def GoMap.merge (b m : Bucket) : Bucket := mergeInto b m.entries

/-- The pairs of a bucket by ascending key. -/
def Bucket.pairs (b : Bucket) : List KV := b.entries.map (fun e => KV.mk e.1 e.2)

/-- A call of one of the three mutators of the store. -/
inductive Call where
  | SetMap (o : RangeOrder) (s : String) (m : Bucket)
  | SetKV (o : RangeOrder) (s : String) (kv : List KV)
  | Delete (s : String)

namespace Call

/-- The store after the call (the error it returns is dropped). -/
def run (c : Call) (db : DB) : DB :=
  match c with
  | SetMap o s m => (db.SetMap o s m).1
  | SetKV o s kv => (db.SetKV o s kv).1
  | Delete s => (db.Delete s).1

/-- Whether the call is a write (`SetMap` or `SetKV`) to namespace `ns`. -/
def writes (c : Call) (ns : String) : Bool :=
  match c with
  | SetMap _ s _ => decide (s = ns)
  | SetKV _ s _ => decide (s = ns)
  | Delete _ => false

end Call

/-- The store after a sequence of calls, made first to last. -/
def runCalls (calls : List Call) (db : DB) : DB :=
  calls.foldl (fun db c => c.run db) db

/-- The store of a freshly opened in-memory database. -/
def emptyStore : DB := { db := GoMap.empty, config := DefaultConfig, file := none }

/-- The bucket `{a:1, b:2}`. -/
def sampleBucket : Bucket := (GoMap.empty.set "b" "2").set "a" "1"

/-- A store whose only namespace `"ns"` holds `{a:1, b:2}`. -/
def sampleStore : DB :=
  { db := GoMap.empty.set "ns" sampleBucket
    config := DefaultConfig
    file := none }

/-- Three calls, none of them a write to `"ns"`. -/
def sampleCalls : List Call :=
  [Call.SetMap RangeOrder.descending "other" (GoMap.empty.set "a" "1"),
    Call.Delete "ns",
    Call.SetKV RangeOrder.ascending "x" [KV.mk "k" "v"]]

/-- An operating system on which no file can be opened. -/
def noFiles : String → Except String File := fun _ => Except.error "permission denied"

/-- A codec that encodes every mapping as no bytes and decodes nothing. -/
def nullGob : Gob := { Encode := fun _ => Except.ok [], Decode := fun _ m => Except.ok m }

/-- Every namespace present in the mapping has at least one entry. -/
def DB.NoEmptyBucket (db : DB) : Prop :=
  ∀ ns b, db.db.index ns = some b → b.len ≠ 0

/-- Calls that write nothing, write, overwrite with a duplicate-key batch, and delete. -/
def writeCalls : List Call :=
  [Call.SetMap RangeOrder.ascending "ns" GoMap.empty,
    Call.SetMap RangeOrder.descending "ns" sampleBucket,
    Call.SetKV RangeOrder.ascending "ns" [KV.mk "a" "1", KV.mk "a" "2"],
    Call.SetKV RangeOrder.ascending "other" [KV.mk "k" "v"],
    Call.Delete "other"]

/-! ## Saving and closing (`src/mdb.go`, lines 64-128) -/

/-- What a call of `Close` leaves behind: `store` is the `DB` that the caller's pointer refers
to, `receiver` the `DB` that the method's own variable `db` refers to when the method returns,
`err` the error returned. -/
structure Closed where
  store : DB
  receiver : DB
  err : error

/-- The variable `db` captured by the teardown closure of `Open`: it refers to the store
handed to the caller (`shared`) until a teardown makes it refer to a store of its own. -/
inductive Captured where
  | shared
  | own (d : DB)

/-- What a call of the teardown closure leaves behind: the store of the caller, the variable
captured by the closure, and the error returned. -/
structure TornDown where
  store : DB
  captured : Captured
  err : error

namespace DB

/-- Go's `(*DB).Save`. -/
def Save (gob : Gob) (db : DB) : DB × error :=
  if db.config.Path ≠ "" then
    match gob.Encode db.db with
    | .error e => (db, some e)
    | .ok b =>
      match File.WriteAt db.file b 0 with
      | (f, some e) => ({ db with file := f }, some e)
      | (f, none) => ({ db with file := f }, none)
  else (db, none)

/-- The statements of `Close` before its last assignment (the teardown closure of `Open`
repeats them): `Save`, then `Sync` and `Close` of the file when a path is configured. -/
def closeFile (gob : Gob) (db : DB) : DB × error :=
  match Save gob db with
  | (db, some e) => (db, some e)
  | (db, none) =>
    if db.config.Path ≠ "" then
      match File.Sync db.file with
      | some e => (db, some e)
      | none =>
        match File.Close db.file with
        | (f, some e) => ({ db with file := f }, some e)
        | (f, none) => ({ db with file := f }, none)
    else (db, none)

/-- The composite literal `&DB{db: map[string]map[string]string{}}`: an empty mapping, the
zero `Config` and the `nil` file. -/
def fresh : DB := { db := GoMap.empty, config := { Path := "" }, file := none }

/-- Go's `(*DB).Close`.  Its last statement, `db = &DB{db: map[string]map[string]string{}}`,
assigns to the receiver variable `db`, a copy of the caller's pointer: it makes that variable
refer to a new store and writes nothing into the store that the caller holds. -/
def Close (gob : Gob) (db : DB) : Closed :=
  match closeFile gob db with
  | (db, some e) => { store := db, receiver := db, err := some e }
  | (db, none) => { store := db, receiver := fresh, err := none }

end DB

/-- The teardown closure returned by `Open`, called on the store `store` of the caller with
the closure's variable in state `captured`.  Its last statement assigns a new store to the
captured variable, which the caller's pointer does not follow. -/
def teardown (gob : Gob) (store : DB) (captured : Captured) : TornDown :=
  match captured with
  | Captured.shared =>
    match DB.closeFile gob store with
    | (db, some e) => { store := db, captured := Captured.shared, err := some e }
    | (db, none) => { store := db, captured := Captured.own DB.fresh, err := none }
  | Captured.own d =>
    match DB.closeFile gob d with
    | (d, some e) => { store := store, captured := Captured.own d, err := some e }
    | (_, none) => { store := store, captured := Captured.own DB.fresh, err := none }

/-- A file-backed store on `"db.gob"`, whose file holds four bytes, with namespace `"ns"`
holding `{a:1, b:2}`. -/
def fileStore : DB :=
  { db := GoMap.empty.set "ns" sampleBucket
    config := { Path := "db.gob" }
    file := some { bytes := [9, 9, 9, 9], closed := false } }

/-- A codec that encodes every mapping as the two bytes `1, 2`. -/
def twoByteGob : Gob :=
  { Encode := fun _ => Except.ok [1, 2], Decode := fun _ m => Except.ok m }

/-! ## The snapshot codec

The sources encode and decode the mapping with Go's package `encoding/gob`, which is not among
them.  The operations of the store take the codec as the parameter `gob`; the codec below is
one instance of it, written from the specification. -/

/-- Modelled from the spec: part of the snapshot codec, a natural number as bytes, seven bits
a byte and the low bits first, the top bit of a byte telling that more bytes follow.  At most
`fuel + 1` bytes are produced. -/
def encodeNatAux : Nat → Nat → List Nat
  | 0, n => [n % 128]
  | fuel + 1, n => if n < 128 then [n] else (128 + n % 128) :: encodeNatAux fuel (n / 128)

/-- Modelled from the spec: part of the snapshot codec, the bytes of a natural number. -/
def encodeNat (n : Nat) : List Nat := encodeNatAux n n

/-- Modelled from the spec: part of the snapshot codec, reads a natural number off the front of
a byte stream and returns it with the rest of the stream. -/
def decodeNat : List Nat → Option (Nat × List Nat)
  | [] => none
  | b :: rest =>
    if b < 128 then some (b, rest)
    else
      match decodeNat rest with
      | none => none
      | some (n, rest) => some (b - 128 + 128 * n, rest)

/-- Modelled from the spec: part of the snapshot codec, reads `n` items off the front of a byte
stream. -/
def decodeMany {α : Type} (item : List Nat → Option (α × List Nat)) :
    Nat → List Nat → Option (List α × List Nat)
  | 0, bs => some ([], bs)
  | n + 1, bs =>
    match item bs with
    | none => none
    | some (x, bs) =>
      match decodeMany item n bs with
      | none => none
      | some (xs, bs) => some (x :: xs, bs)

/-- Modelled from the spec: part of the snapshot codec, a string as its number of characters
followed by the code of each character. -/
def encodeString (s : String) : List Nat :=
  encodeNat s.data.length ++ s.data.flatMap (fun c => encodeNat c.toNat)

/-- Modelled from the spec: part of the snapshot codec, reads one character. -/
def decodeChar (bs : List Nat) : Option (Char × List Nat) :=
  match decodeNat bs with
  | none => none
  | some (n, bs) => some (Char.ofNat n, bs)

/-- Modelled from the spec: part of the snapshot codec, reads one string. -/
def decodeString (bs : List Nat) : Option (String × List Nat) :=
  match decodeNat bs with
  | none => none
  | some (n, bs) =>
    match decodeMany decodeChar n bs with
    | none => none
    | some (cs, bs) => some (String.mk cs, bs)

/-- Modelled from the spec: part of the snapshot codec, a key and its value. -/
def encodeEntry (e : String × String) : List Nat := encodeString e.1 ++ encodeString e.2

/-- Modelled from the spec: part of the snapshot codec, reads a key and its value. -/
def decodeEntry (bs : List Nat) : Option ((String × String) × List Nat) :=
  match decodeString bs with
  | none => none
  | some (k, bs) =>
    match decodeString bs with
    | none => none
    | some (v, bs) => some ((k, v), bs)

/-- Modelled from the spec: part of the snapshot codec, a bucket as its number of entries
followed by the entries. -/
def encodeBucket (b : Bucket) : List Nat :=
  encodeNat b.entries.length ++ b.entries.flatMap encodeEntry

/-- Modelled from the spec: part of the snapshot codec, reads one bucket. -/
def decodeBucket (bs : List Nat) : Option (Bucket × List Nat) :=
  match decodeNat bs with
  | none => none
  | some (n, bs) =>
    match decodeMany decodeEntry n bs with
    | none => none
    | some (es, bs) => some (es.foldl (fun m e => m.set e.1 e.2) GoMap.empty, bs)

/-- Modelled from the spec: part of the snapshot codec, a namespace and its bucket. -/
def encodeNamespace (e : String × Bucket) : List Nat := encodeString e.1 ++ encodeBucket e.2

/-- Modelled from the spec: part of the snapshot codec, reads a namespace and its bucket. -/
def decodeNamespace (bs : List Nat) : Option ((String × Bucket) × List Nat) :=
  match decodeString bs with
  | none => none
  | some (s, bs) =>
    match decodeBucket bs with
    | none => none
    | some (b, bs) => some ((s, b), bs)

/-- Modelled from the spec: the encoder of the snapshot codec (in the sources, `gob`'s
`Encode`), the mapping as its number of namespaces followed by the namespaces. -/
def encodeStore (m : GoMap Bucket) : List Nat :=
  encodeNat m.entries.length ++ m.entries.flatMap encodeNamespace

/-- Modelled from the spec: the decoder of the snapshot codec (in the sources, `gob`'s
`Decode`), reads one mapping off the front of a byte stream, whatever follows it, and assigns
its namespaces into the mapping `into`; `none` when the stream ends early. -/
def decodeStore (bs : List Nat) (into : GoMap Bucket) : Option (GoMap Bucket) :=
  match decodeNat bs with
  | none => none
  | some (n, bs) =>
    match decodeMany decodeNamespace n bs with
    | none => none
    | some (es, _) => some (es.foldl (fun m e => m.set e.1 e.2) into)

/-- Modelled from the spec: the snapshot codec, which the sources take from Go's package
`encoding/gob` (not among them): it serializes the whole mapping to a byte sequence and
reconstructs it. -/
def snapshotCodec : Gob :=
  { Encode := fun m => Except.ok (encodeStore m)
    Decode := fun bs into =>
      match decodeStore bs into with
      | none => Except.error "unexpected EOF"
      | some m => Except.ok m }

/-- What the store needs of its codec: every mapping has an encoding, and decoding a stream
that starts with this encoding into the empty mapping yields the mapping encoded, whatever
bytes follow. -/
def Gob.Lossless (gob : Gob) : Prop :=
  ∀ m, ∃ b, gob.Encode m = Except.ok b ∧
    ∀ rest, gob.Decode (b ++ rest) GoMap.empty = Except.ok m

/-! ## Facts about Go maps -/

theorem lookupEntry_insertEntry {V : Type} (k k' : String) (v : V) (l : List (String × V)) :
    lookupEntry k' (insertEntry k v l) = if k' = k then some v else lookupEntry k' l := by
  induction l with
  | nil => simp [insertEntry, lookupEntry]
  | cons a t ih =>
    simp only [insertEntry]
    split_ifs with h1 h2 h3 h4 h5
    all_goals simp only [lookupEntry, ih]
    all_goals split_ifs <;> simp_all

theorem lookupEntry_filter {V : Type} (k k' : String) (l : List (String × V)) :
    lookupEntry k' (l.filter (fun e => decide (e.1 ≠ k))) =
      if k' = k then none else lookupEntry k' l := by
  induction l with
  | nil => simp [lookupEntry]
  | cons a t ih =>
    by_cases h : a.1 = k
    · have hf : (a :: t).filter (fun e => decide (e.1 ≠ k)) =
          t.filter (fun e => decide (e.1 ≠ k)) := by simp [h]
      rw [hf, ih]
      by_cases h2 : k' = k
      · simp [h2]
      · have h3 : ¬ k' = a.1 := by rw [h]; exact h2
        simp [h2, h3, lookupEntry]
    · have hf : (a :: t).filter (fun e => decide (e.1 ≠ k)) =
          a :: t.filter (fun e => decide (e.1 ≠ k)) := by simp [h]
      rw [hf]
      simp only [lookupEntry, ih]
      by_cases h2 : k' = k
      · have h3 : ¬ k = a.1 := fun h4 => h h4.symm
        simp [h2, h3]
      · simp [h2]

theorem lookupEntry_eq_none {V : Type} (k : String) (l : List (String × V)) :
    lookupEntry k l = none ↔ ∀ e ∈ l, e.1 ≠ k := by
  induction l with
  | nil => simp [lookupEntry]
  | cons a t ih =>
    simp only [lookupEntry, List.mem_cons, forall_eq_or_imp]
    by_cases h : k = a.1
    · simp [h]
    · simp only [h, if_false, ih]
      constructor
      · intro h2
        exact ⟨fun h3 => h h3.symm, h2⟩
      · intro h2
        exact h2.2

theorem lookupEntry_eq_some {V : Type} (k : String) (v : V) (l : List (String × V))
    (hl : l.Pairwise (fun a b => a.1 < b.1)) :
    lookupEntry k l = some v ↔ (k, v) ∈ l := by
  induction l with
  | nil => simp [lookupEntry]
  | cons a t ih =>
    have hat := (List.pairwise_cons.1 hl).1
    have ht := (List.pairwise_cons.1 hl).2
    simp only [lookupEntry, List.mem_cons]
    by_cases h : k = a.1
    · simp only [h, if_true, Option.some.injEq]
      constructor
      · intro h2
        left
        rw [← h2]
      · intro h2
        rcases h2 with h2 | h2
        · rw [← h2]
        · exact absurd (hat _ h2) (lt_irrefl _)
    · simp only [h, if_false, ih ht]
      constructor
      · intro h2
        exact Or.inr h2
      · intro h2
        rcases h2 with h2 | h2
        · exact absurd (by rw [← h2]) h
        · exact h2

theorem ascending_nodup {V : Type} (l : List (String × V))
    (hl : l.Pairwise (fun a b => a.1 < b.1)) : l.Nodup := by
  refine List.Pairwise.imp ?_ hl
  intro a b hab h
  rw [h] at hab
  exact lt_irrefl _ hab

theorem ascending_keys_nodup {V : Type} (l : List (String × V))
    (hl : l.Pairwise (fun a b => a.1 < b.1)) : (l.map Prod.fst).Nodup := by
  rw [List.Nodup, List.pairwise_map]
  refine List.Pairwise.imp ?_ hl
  intro a b hab h
  rw [h] at hab
  exact lt_irrefl _ hab

theorem ascending_unique {V : Type} (l₁ l₂ : List (String × V))
    (h₁ : l₁.Pairwise (fun a b => a.1 < b.1)) (h₂ : l₂.Pairwise (fun a b => a.1 < b.1))
    (hp : l₁.Perm l₂) : l₁ = l₂ := by
  haveI : IsAntisymm (String × V) (fun a b => a.1 < b.1) :=
    ⟨fun a b hab hba => absurd (lt_trans hab hba) (lt_irrefl _)⟩
  exact List.eq_of_perm_of_sorted hp h₁ h₂

namespace GoMap

theorem index_eq_some {V : Type} (m : GoMap V) (k : String) (v : V) :
    m.index k = some v ↔ (k, v) ∈ m.entries :=
  lookupEntry_eq_some k v m.entries m.ascending

theorem index_eq_none {V : Type} (m : GoMap V) (k : String) :
    m.index k = none ↔ ∀ e ∈ m.entries, e.1 ≠ k :=
  lookupEntry_eq_none k m.entries

theorem eq_of_entries {V : Type} (m₁ m₂ : GoMap V) (h : m₁.entries = m₂.entries) : m₁ = m₂ := by
  cases m₁
  cases m₂
  simp only at h
  subst h
  rfl

/-- Two maps that answer every lookup alike are the same map. -/
theorem ext_index {V : Type} (m₁ m₂ : GoMap V) (h : ∀ k, m₁.index k = m₂.index k) :
    m₁ = m₂ := by
  apply eq_of_entries
  apply ascending_unique _ _ m₁.ascending m₂.ascending
  rw [List.perm_ext_iff_of_nodup (ascending_nodup _ m₁.ascending)
    (ascending_nodup _ m₂.ascending)]
  intro e
  rw [← index_eq_some m₁ e.1 e.2, ← index_eq_some m₂ e.1 e.2, h]

theorem index_empty {V : Type} (k : String) : (empty : GoMap V).index k = none := rfl

theorem index_set {V : Type} (m : GoMap V) (k k' : String) (v : V) :
    (m.set k v).index k' = if k' = k then some v else m.index k' :=
  lookupEntry_insertEntry k k' v m.entries

theorem index_set_self {V : Type} (m : GoMap V) (k : String) (v : V) :
    (m.set k v).index k = some v := by
  rw [index_set]; simp

theorem index_set_other {V : Type} (m : GoMap V) (k k' : String) (v : V) (h : k' ≠ k) :
    (m.set k v).index k' = m.index k' := by
  rw [index_set]; simp [h]

theorem index_delete {V : Type} (m : GoMap V) (k k' : String) :
    (m.delete k).index k' = if k' = k then none else m.index k' :=
  lookupEntry_filter k k' m.entries

theorem set_set {V : Type} (m : GoMap V) (k : String) (v w : V) :
    (m.set k v).set k w = m.set k w := by
  apply ext_index
  intro k'
  simp only [index_set]
  split_ifs <;> rfl

theorem delete_absent {V : Type} (m : GoMap V) (k : String) (h : m.index k = none) :
    m.delete k = m := by
  apply eq_of_entries
  show m.entries.filter (fun e => decide (e.1 ≠ k)) = m.entries
  rw [List.filter_eq_self]
  intro e he
  simpa using (index_eq_none m k).1 h e he

theorem len_eq_zero {V : Type} (m : GoMap V) : m.len = 0 ↔ m = empty := by
  constructor
  · intro h
    apply eq_of_entries
    exact List.length_eq_zero.1 h
  · intro h
    rw [h]
    rfl

theorem len_set_ne_zero {V : Type} (m : GoMap V) (k : String) (v : V) : (m.set k v).len ≠ 0 := by
  intro h
  have h2 := index_set_self m k v
  rw [(len_eq_zero _).1 h, index_empty] at h2
  exact Option.noConfusion h2

end GoMap

/-! ## The merge loop of `SetMap` and `SetKV` -/

theorem lookupEntry_eq_some_of_nodup {V : Type} (k : String) (v : V) (l : List (String × V))
    (hl : (l.map Prod.fst).Nodup) : lookupEntry k l = some v ↔ (k, v) ∈ l := by
  induction l with
  | nil => simp [lookupEntry]
  | cons a t ih =>
    rw [List.map_cons, List.nodup_cons] at hl
    simp only [lookupEntry, List.mem_cons]
    by_cases h : k = a.1
    · simp only [h, if_true, Option.some.injEq]
      constructor
      · intro h2
        left
        rw [← h2]
      · intro h2
        rcases h2 with h2 | h2
        · rw [← h2]
        · exact absurd (List.mem_map_of_mem Prod.fst h2) hl.1
    · simp only [h, if_false, ih hl.2]
      constructor
      · intro h2
        exact Or.inr h2
      · intro h2
        rcases h2 with h2 | h2
        · exact absurd (by rw [← h2]) h
        · exact h2

/-- Looking a key up does not depend on the order of a list with distinct keys. -/
theorem lookupEntry_perm {V : Type} (k : String) (l₁ l₂ : List (String × V))
    (hp : l₁.Perm l₂) (hl : (l₂.map Prod.fst).Nodup) : lookupEntry k l₁ = lookupEntry k l₂ := by
  have hl₁ : (l₁.map Prod.fst).Nodup := ((hp.map Prod.fst).nodup_iff).2 hl
  apply Option.ext
  intro v
  rw [Option.mem_def, Option.mem_def, lookupEntry_eq_some_of_nodup k v l₁ hl₁,
    lookupEntry_eq_some_of_nodup k v l₂ hl, hp.mem_iff]

theorem index_mergeInto (l : List (String × String)) (hl : (l.map Prod.fst).Nodup)
    (b : Bucket) (k : String) :
    (mergeInto b l).index k =
      match lookupEntry k l with
      | some v => some v
      | none => b.index k := by
  induction l generalizing b with
  | nil => rfl
  | cons e t ih =>
    rw [List.map_cons, List.nodup_cons] at hl
    show (mergeInto (b.set e.1 e.2) t).index k = _
    rw [ih hl.2]
    simp only [lookupEntry]
    by_cases h : k = e.1
    · have hn : lookupEntry k t = none := by
        rw [lookupEntry_eq_none]
        intro a ha h2
        exact hl.1 (by rw [← h, ← h2]; exact List.mem_map_of_mem Prod.fst ha)
      rw [hn, h, GoMap.index_set_self]
      simp
    · simp only [h, if_false, GoMap.index_set_other _ _ _ _ h]

theorem GoMap.index_merge (b m : Bucket) (k : String) :
    (GoMap.merge b m).index k =
      match m.index k with
      | some v => some v
      | none => b.index k :=
  index_mergeInto m.entries (ascending_keys_nodup _ m.ascending) b k

/-- The result of the merge loop does not depend on the order in which `range` visits `m`. -/
theorem mergeInto_visit (o : RangeOrder) (b m : Bucket) :
    mergeInto b (o.visit m.entries) = GoMap.merge b m := by
  have hk := ascending_keys_nodup _ m.ascending
  have hv : ((o.visit m.entries).map Prod.fst).Nodup :=
    (((o.perm m.entries).map Prod.fst).nodup_iff).2 hk
  apply GoMap.ext_index
  intro k
  rw [index_mergeInto _ hv, GoMap.index_merge, lookupEntry_perm k _ _ (o.perm m.entries) hk]
  rfl

theorem assignEntry_eq (s : String) (db : DB) (k v : String) :
    assignEntry s db k v =
      { db with db := db.db.set s (((db.db.index s).getD GoMap.empty).set k v) } := by
  unfold assignEntry
  cases h : db.db.index s with
  | none =>
    simp only [GoMap.index_set_self, GoMap.set_set, Option.getD_none]
  | some b =>
    simp only [h, Option.getD_some]

theorem foldl_assignEntry (s : String) (l : List (String × String)) (db : DB) :
    l.foldl (fun db e => assignEntry s db e.1 e.2) db =
      match l with
      | [] => db
      | _ :: _ =>
        { db with db := db.db.set s (mergeInto ((db.db.index s).getD GoMap.empty) l) } := by
  induction l generalizing db with
  | nil => rfl
  | cons e t ih =>
    rw [List.foldl_cons, ih, assignEntry_eq]
    cases t with
    | nil => rfl
    | cons e' t' =>
      simp only [GoMap.index_set_self, GoMap.set_set, Option.getD_some]
      rfl

/-- Closed form of the merge loop: nothing happens for an empty `m`, otherwise the bucket of
`s` (an empty one if `s` has none) receives the entries of `m`. -/
theorem mergeLoop_eq (o : RangeOrder) (db : DB) (s : String) (m : Bucket) :
    (o.visit m.entries).foldl (fun db e => assignEntry s db e.1 e.2) db =
      if m.len = 0 then db
      else { db with db := db.db.set s (GoMap.merge ((db.db.index s).getD GoMap.empty) m) } := by
  rw [foldl_assignEntry]
  have hlen : (o.visit m.entries).length = m.entries.length := (o.perm m.entries).length_eq
  cases hv : o.visit m.entries with
  | nil =>
    rw [hv] at hlen
    have h0 : m.len = 0 := hlen.symm
    simp [h0]
  | cons e t =>
    rw [hv] at hlen
    have h0 : m.len ≠ 0 := by
      show m.entries.length ≠ 0
      rw [← hlen]
      simp
    simp only [h0, if_false]
    rw [← hv, mergeInto_visit]

/-! ## The duplicate check of `SetKV` -/

theorem collectKV_isSome (kv : List KV) (m : Bucket) :
    (collectKV kv m).isSome = true ↔
      (kv.map KV.Key).Nodup ∧ ∀ p ∈ kv, m.index p.Key = none := by
  induction kv generalizing m with
  | nil => simp [collectKV]
  | cons p rest ih =>
    simp only [collectKV, List.map_cons, List.nodup_cons, List.mem_cons, forall_eq_or_imp]
    cases h : m.index p.Key with
    | some v => simp
    | none =>
      simp only [ih, GoMap.index_set, true_and]
      constructor
      · rintro ⟨h1, h2⟩
        refine ⟨⟨?_, h1⟩, ?_⟩
        · intro hmem
          obtain ⟨q, hq, hqk⟩ := List.mem_map.1 hmem
          have := h2 q hq
          simp [hqk] at this
        · intro q hq
          have := h2 q hq
          by_cases hk : q.Key = p.Key
          · simp [hk] at this
          · simpa [hk] using this
      · rintro ⟨⟨h1, h2⟩, h3⟩
        refine ⟨h2, ?_⟩
        intro q hq
        have hk : q.Key ≠ p.Key := by
          intro hk
          exact h1 (by rw [← hk]; exact List.mem_map_of_mem KV.Key hq)
        simpa [hk] using h3 q hq

theorem collectKV_index (kv : List KV) (m m' : Bucket) (h : collectKV kv m = some m')
    (k v : String) : m'.index k = some v ↔ (KV.mk k v ∈ kv ∨ m.index k = some v) := by
  induction kv generalizing m with
  | nil =>
    simp only [collectKV, Option.some.injEq] at h
    simp [h]
  | cons p rest ih =>
    simp only [collectKV] at h
    cases hp : m.index p.Key with
    | some w => simp [hp] at h
    | none =>
      simp only [hp] at h
      rw [ih _ h, GoMap.index_set, List.mem_cons]
      by_cases hk : k = p.Key
      · subst hk
        simp only [if_true, Option.some.injEq, hp]
        constructor
        · rintro (h1 | h1)
          · exact Or.inl (Or.inr h1)
          · exact Or.inl (Or.inl (by rw [← h1]))
        · rintro ((h1 | h1) | h1)
          · right
            rw [← h1]
          · exact Or.inl h1
          · exact absurd h1 (by simp)
      · simp only [hk, if_false]
        constructor
        · rintro (h1 | h1)
          · exact Or.inl (Or.inr h1)
          · exact Or.inr h1
        · rintro ((h1 | h1) | h1)
          · exact absurd (by rw [← h1]) hk
          · exact Or.inl h1
          · exact Or.inr h1

/-! ## The sorted view of `GetKV` -/

theorem insertLast_perm (less : KV → KV → Bool) (x : KV) (l : List KV) :
    (insertLast less x l).Perm (x :: l) := by
  induction l with
  | nil => exact List.Perm.refl _
  | cons y ys ih =>
    simp only [insertLast]
    split_ifs with h
    · exact List.Perm.refl _
    · exact (ih.cons y).trans (List.Perm.swap x y ys)

theorem insertLast_sorted (x : KV) (l : List KV)
    (hl : l.Pairwise (fun a b => a.Key ≤ b.Key)) :
    (insertLast lessKey x l).Pairwise (fun a b => a.Key ≤ b.Key) := by
  induction l with
  | nil => simp [insertLast]
  | cons y ys ih =>
    have hy := (List.pairwise_cons.1 hl).1
    have hys := (List.pairwise_cons.1 hl).2
    simp only [insertLast, lessKey, decide_eq_true_eq]
    split_ifs with h
    · refine List.pairwise_cons.2 ⟨?_, hl⟩
      intro z hz
      rcases List.mem_cons.1 hz with hz | hz
      · rw [hz]; exact le_of_lt h
      · exact le_trans (le_of_lt h) (hy z hz)
    · refine List.pairwise_cons.2 ⟨?_, ih hys⟩
      intro z hz
      rcases List.mem_cons.1 ((insertLast_perm lessKey x ys).mem_iff.1 hz) with hz | hz
      · rw [hz]; exact not_lt.1 h
      · exact hy z hz

theorem foldl_insertLast_perm (less : KV → KV → Bool) (l acc : List KV) :
    (l.foldl (fun sorted x => insertLast less x sorted) acc).Perm (acc ++ l) := by
  induction l generalizing acc with
  | nil => simp
  | cons x xs ih =>
    rw [List.foldl_cons]
    refine (ih _).trans ?_
    refine ((insertLast_perm less x acc).append_right xs).trans ?_
    have hmid : (acc ++ x :: xs).Perm (x :: (acc ++ xs)) := List.perm_middle
    simpa using hmid.symm

theorem foldl_insertLast_sorted (l acc : List KV)
    (hacc : acc.Pairwise (fun a b => a.Key ≤ b.Key)) :
    (l.foldl (fun sorted x => insertLast lessKey x sorted) acc).Pairwise
      (fun a b => a.Key ≤ b.Key) := by
  induction l generalizing acc with
  | nil => exact hacc
  | cons x xs ih =>
    rw [List.foldl_cons]
    exact ih _ (insertLast_sorted x acc hacc)

theorem SliceStable_perm (kv : List KV) (less : KV → KV → Bool) :
    (SliceStable kv less).Perm kv := by
  simpa [SliceStable] using foldl_insertLast_perm less kv []

theorem SliceStable_sorted (kv : List KV) :
    (SliceStable kv lessKey).Pairwise (fun a b => a.Key ≤ b.Key) :=
  foldl_insertLast_sorted kv [] List.Pairwise.nil

/-- On keys that are all different the stable sort yields strictly ascending keys. -/
theorem SliceStable_ascending (kv : List KV) (hkv : (kv.map KV.Key).Nodup) :
    (SliceStable kv lessKey).Pairwise (fun a b => a.Key < b.Key) := by
  have hnd : ((SliceStable kv lessKey).map KV.Key).Nodup :=
    (((SliceStable_perm kv lessKey).map KV.Key).nodup_iff).2 hkv
  rw [List.Nodup, List.pairwise_map] at hnd
  refine List.Pairwise.imp ?_ ((SliceStable_sorted kv).and hnd)
  intro a b hab
  exact lt_of_le_of_ne hab.1 hab.2

theorem ascendingKV_unique (l₁ l₂ : List KV)
    (h₁ : l₁.Pairwise (fun a b => a.Key < b.Key)) (h₂ : l₂.Pairwise (fun a b => a.Key < b.Key))
    (hp : l₁.Perm l₂) : l₁ = l₂ := by
  haveI : IsAntisymm KV (fun a b => a.Key < b.Key) :=
    ⟨fun a b hab hba => absurd (lt_trans hab hba) (lt_irrefl _)⟩
  exact List.eq_of_perm_of_sorted hp h₁ h₂

theorem foldl_append_KV (l : List (String × String)) (acc : List KV) :
    l.foldl (fun kv e => kv ++ [KV.mk e.1 e.2]) acc = acc ++ l.map (fun e => KV.mk e.1 e.2) := by
  induction l generalizing acc with
  | nil => simp
  | cons e t ih => simp [ih]

theorem Bucket.pairs_ascending (b : Bucket) :
    b.pairs.Pairwise (fun x y => x.Key < y.Key) := by
  unfold Bucket.pairs
  rw [List.pairwise_map]
  exact b.ascending

theorem Bucket.mem_pairs (b : Bucket) (k v : String) :
    KV.mk k v ∈ b.pairs ↔ b.index k = some v := by
  rw [GoMap.index_eq_some]
  unfold Bucket.pairs
  constructor
  · intro h
    obtain ⟨e, he, hkv⟩ := List.mem_map.1 h
    simp only [KV.mk.injEq] at hkv
    have : e = (k, v) := Prod.ext hkv.1 hkv.2
    rw [← this]
    exact he
  · intro h
    exact List.mem_map.2 ⟨(k, v), h, rfl⟩

/-- Closed form of `GetKV` on a non-empty bucket: whatever the order in which `range` visits
the bucket, the result is its pairs by ascending key. -/
theorem GetKV_eq (o : RangeOrder) (db : DB) (s : String) (b : Bucket)
    (hb : db.db.index s = some b) (hlen : b.len ≠ 0) :
    db.GetKV o s = (b.pairs, none) := by
  unfold DB.GetKV
  simp only [hb, hlen, if_false]
  have hperm : ((o.visit b.entries).map (fun e => KV.mk e.1 e.2)).Perm b.pairs :=
    (o.perm b.entries).map _
  have hkeys : (((o.visit b.entries).map (fun e => KV.mk e.1 e.2)).map KV.Key).Nodup := by
    rw [((hperm.map KV.Key).nodup_iff)]
    have := b.pairs_ascending
    rw [List.Nodup, List.pairwise_map]
    exact this.imp (fun h => ne_of_lt h)
  rw [foldl_append_KV, List.nil_append]
  have hsort := SliceStable_ascending _ hkeys
  have hp2 := (SliceStable_perm ((o.visit b.entries).map (fun e => KV.mk e.1 e.2)) lessKey).trans
    hperm
  have := ascendingKV_unique _ _ hsort b.pairs_ascending hp2
  exact Prod.ext this rfl

/-! ## Closed forms of the mutators -/

theorem SetMap_fst (o : RangeOrder) (db : DB) (s : String) (m : Bucket) :
    (db.SetMap o s m).1 =
      if m.len = 0 then db
      else { db with db := db.db.set s (GoMap.merge ((db.db.index s).getD GoMap.empty) m) } :=
  mergeLoop_eq o db s m

theorem value_eq (db : DB) (ns k : String) :
    db.value ns k = ((db.db.index ns).getD GoMap.empty).index k := by
  unfold DB.value
  cases db.db.index ns <;> rfl

theorem SetMap_value (o : RangeOrder) (db : DB) (ns : String) (m : Bucket) (k : String) :
    (db.SetMap o ns m).1.value ns k =
      match m.index k with
      | some v => some v
      | none => db.value ns k := by
  rw [SetMap_fst]
  by_cases h0 : m.len = 0
  · have hm : m.index k = none := by
      rw [(GoMap.len_eq_zero m).1 h0]
      rfl
    simp only [h0, if_true, hm]
  · simp only [h0, if_false]
    rw [value_eq db]
    unfold DB.value
    simp only [GoMap.index_set_self, GoMap.index_merge]

/-- On a store without namespace `ns`, a non-empty `m` becomes the bucket of `ns`. -/
theorem SetMap_fresh (o : RangeOrder) (db : DB) (ns : String) (m : Bucket)
    (hns : db.db.index ns = none) (hm : m.len ≠ 0) :
    (db.SetMap o ns m).1.db.index ns = some m := by
  rw [SetMap_fst]
  simp only [hm, if_false, GoMap.index_set_self, hns, Option.getD_none, Option.some.injEq]
  apply GoMap.ext_index
  intro k
  rw [GoMap.index_merge, GoMap.index_empty]
  cases m.index k <;> rfl

theorem SetKV_of_nodup (o : RangeOrder) (db : DB) (s : String) (kv : List KV)
    (hkv : (kv.map KV.Key).Nodup) :
    ∃ m, collectKV kv GoMap.empty = some m ∧ db.SetKV o s kv = db.SetMap o s m := by
  have h : (collectKV kv GoMap.empty).isSome = true :=
    (collectKV_isSome kv GoMap.empty).2 ⟨hkv, fun _ _ => rfl⟩
  obtain ⟨m, hm⟩ := Option.isSome_iff_exists.1 h
  refine ⟨m, hm, ?_⟩
  unfold DB.SetKV DB.SetMap
  rw [hm]

theorem SetKV_of_dup (o : RangeOrder) (db : DB) (s : String) (kv : List KV)
    (hkv : ¬ (kv.map KV.Key).Nodup) :
    db.SetKV o s kv = (db, some "duplicate key detected") := by
  have h : collectKV kv GoMap.empty = none := by
    cases hc : collectKV kv GoMap.empty with
    | none => rfl
    | some m =>
      have := (collectKV_isSome kv GoMap.empty).1 (by rw [hc]; rfl)
      exact absurd this.1 hkv
  unfold DB.SetKV
  rw [h]

/-- Keys are not all different exactly when two positions hold the same key. -/
theorem not_nodup_keys_iff (kv : List KV) :
    ¬ (kv.map KV.Key).Nodup ↔
      ∃ (i j : Nat) (x y : KV), i ≠ j ∧ kv[i]? = some x ∧ kv[j]? = some y ∧ x.Key = y.Key := by
  rw [List.Nodup, List.pairwise_map, List.pairwise_iff_getElem]
  constructor
  · intro h
    push_neg at h
    obtain ⟨i, j, hi, hj, hij, heq⟩ := h
    exact ⟨i, j, kv[i], kv[j], Nat.ne_of_lt hij, List.getElem?_eq_getElem hi,
      List.getElem?_eq_getElem hj, heq⟩
  · rintro ⟨i, j, x, y, hij, hx, hy, heq⟩ h
    obtain ⟨hi, hxi⟩ := List.getElem?_eq_some.1 hx
    obtain ⟨hj, hyj⟩ := List.getElem?_eq_some.1 hy
    rcases Nat.lt_or_gt_of_ne hij with hlt | hgt
    · exact h i j hi hj hlt (by rw [hxi, hyj]; exact heq)
    · exact h j i hj hi hgt (by rw [hxi, hyj]; exact heq.symm)

/-! ## Frame lemmas -/

theorem SetMap_index_other (o : RangeOrder) (db : DB) (s t : String) (m : Bucket) (hst : t ≠ s) :
    (db.SetMap o s m).1.db.index t = db.db.index t := by
  rw [SetMap_fst]
  by_cases h0 : m.len = 0
  · simp only [h0, if_true]
  · simp only [h0, if_false, GoMap.index_set_other _ _ _ _ hst]

theorem SetKV_index_other (o : RangeOrder) (db : DB) (s t : String) (kv : List KV)
    (hst : t ≠ s) : (db.SetKV o s kv).1.db.index t = db.db.index t := by
  by_cases hkv : (kv.map KV.Key).Nodup
  · obtain ⟨m, _, hm⟩ := SetKV_of_nodup o db s kv hkv
    rw [hm]
    exact SetMap_index_other o db s t m hst
  · rw [SetKV_of_dup o db s kv hkv]

theorem Delete_index (db : DB) (s t : String) :
    (db.Delete s).1.db.index t = if t = s then none else db.db.index t :=
  GoMap.index_delete db.db s t

theorem Call.run_absent (c : Call) (db : DB) (ns : String) (hc : c.writes ns = false)
    (h : db.db.index ns = none) : (c.run db).db.index ns = none := by
  cases c with
  | SetMap o s m =>
    have hne : ns ≠ s := by
      intro he
      simp [Call.writes, he] at hc
    show (db.SetMap o s m).1.db.index ns = none
    rw [SetMap_index_other o db s ns m hne, h]
  | SetKV o s kv =>
    have hne : ns ≠ s := by
      intro he
      simp [Call.writes, he] at hc
    show (db.SetKV o s kv).1.db.index ns = none
    rw [SetKV_index_other o db s ns kv hne, h]
  | Delete s =>
    show (db.Delete s).1.db.index ns = none
    rw [Delete_index]
    split_ifs
    · rfl
    · exact h

theorem runCalls_absent (calls : List Call) (db : DB) (ns : String)
    (hc : ∀ c ∈ calls, c.writes ns = false) (h : db.db.index ns = none) :
    (runCalls calls db).db.index ns = none := by
  induction calls generalizing db with
  | nil => exact h
  | cons c cs ih =>
    show (runCalls cs (c.run db)).db.index ns = none
    exact ih (c.run db) (fun c' hc' => hc c' (List.mem_cons_of_mem _ hc'))
      (Call.run_absent c db ns (hc c (List.mem_cons_self _ _)) h)

theorem GetMap_absent (db : DB) (ns : String) (h : db.db.index ns = none) :
    db.GetMap ns = (GoMap.empty, some "missing") := by
  unfold DB.GetMap
  rw [h]

theorem GetKV_absent (o : RangeOrder) (db : DB) (ns : String) (h : db.db.index ns = none) :
    db.GetKV o ns = ([], some "missing") := by
  unfold DB.GetKV
  rw [h]

theorem Open_in_memory (osOpenFile : String → Except String File) (gob : Gob)
    (config : Option Config) (hcfg : config = none ∨ config = some { Path := "" }) :
    Open osOpenFile gob config = (some { emptyStore with config := { Path := "" } }, none) := by
  rcases hcfg with h | h <;> subst h <;> rfl

/-! ## The contracts of the store -/

/-- C1: `SetMap(ns, m)` returns no error, and afterwards the value of every key `k` in the
bucket of `ns` is `m[k]` when `k` is a key of `m` and is otherwise what it was before the call
(the old value, or still absent). In particular, on an empty store `SetMap(ns, {a:1})` followed
by `SetMap(ns, {a:2, b:3})` leaves the bucket of `ns` equal to `{a:2, b:3}`. -/
theorem SetMap_merges (o o₁ o₂ : RangeOrder) (db : DB) (ns : String) (m : Bucket) :
    (db.SetMap o ns m).2 = none ∧
    (∀ k, (db.SetMap o ns m).1.value ns k =
      match m.index k with
      | some v => some v
      | none => db.value ns k) ∧
    (∀ e : DB, e.db = GoMap.empty →
      ((e.SetMap o₁ ns (GoMap.empty.set "a" "1")).1.SetMap o₂ ns
        ((GoMap.empty.set "a" "2").set "b" "3")).1.db.index ns
        = some ((GoMap.empty.set "a" "2").set "b" "3")) := by
  refine ⟨rfl, SetMap_value o db ns m, ?_⟩
  intro e he
  have h1 : (e.SetMap o₁ ns (GoMap.empty.set "a" "1")).1.db.index ns
      = some (GoMap.empty.set "a" "1") :=
    SetMap_fresh o₁ e ns _ (by rw [he]; rfl) (GoMap.len_set_ne_zero _ _ _)
  rw [SetMap_fst]
  simp only [GoMap.len_set_ne_zero, if_false, GoMap.index_set_self, h1, Option.getD_some,
    Option.some.injEq]
  apply GoMap.ext_index
  intro k
  rw [GoMap.index_merge]
  simp only [GoMap.index_set, GoMap.index_empty]
  by_cases hb : k = "b"
  · simp [hb]
  · by_cases ha : k = "a"
    · simp [ha]
    · simp [ha, hb]

/-- C2: when the bucket of `ns` is non-empty, `GetKV(ns)` returns no error and the keys of the
sequence it returns are strictly ascending: each key is less than the next one. -/
theorem GetKV_keys_ascending (o : RangeOrder) (db : DB) (ns : String) (b : Bucket)
    (hb : db.db.index ns = some b) (hlen : 0 < b.len) :
    (db.GetKV o ns).2 = none ∧
    ∀ (i : Nat) (x y : KV), (db.GetKV o ns).1[i]? = some x → (db.GetKV o ns).1[i + 1]? = some y →
      x.Key < y.Key := by
  rw [GetKV_eq o db ns b hb (Nat.pos_iff_ne_zero.1 hlen)]
  refine ⟨rfl, ?_⟩
  intro i x y hx hy
  obtain ⟨hi, hxi⟩ := List.getElem?_eq_some.1 hx
  obtain ⟨hj, hyj⟩ := List.getElem?_eq_some.1 hy
  rw [← hxi, ← hyj]
  exact List.pairwise_iff_getElem.1 b.pairs_ascending i (i + 1) hi hj (Nat.lt_succ_self i)

/-- C2 on the sample store, its bucket visited by descending key. -/
theorem GetKV_keys_ascending_witness :
    sampleStore.db.index "ns" = some sampleBucket ∧ 0 < sampleBucket.len ∧
    (sampleStore.GetKV RangeOrder.descending "ns").2 = none ∧
    ∀ (i : Nat) (x y : KV),
      (sampleStore.GetKV RangeOrder.descending "ns").1[i]? = some x →
      (sampleStore.GetKV RangeOrder.descending "ns").1[i + 1]? = some y →
      x.Key < y.Key := by
  have hb : sampleStore.db.index "ns" = some sampleBucket := GoMap.index_set_self _ _ _
  have hlen : 0 < sampleBucket.len := Nat.pos_of_ne_zero (GoMap.len_set_ne_zero _ _ _)
  exact ⟨hb, hlen, GetKV_keys_ascending RangeOrder.descending sampleStore "ns" sampleBucket hb hlen⟩

/-- C3: when the bucket `b` of `ns` is non-empty, the sequence returned by `GetKV(ns)` holds
exactly the entries of `b`: a pair `(k, v)` occurs in it if and only if `b` maps `k` to `v`, no
key occurs twice, and its length is the number of keys of `b`. In particular, after
`SetMap("ns", {a:1, b:2})` on an empty store `GetKV("ns")` returns `[(a,1), (b,2)]` and no
error. -/
theorem GetKV_exact (o o₁ o₂ : RangeOrder) (db : DB) (ns : String) (b : Bucket)
    (hb : db.db.index ns = some b) (hlen : 0 < b.len) :
    (∀ k v, KV.mk k v ∈ (db.GetKV o ns).1 ↔ b.index k = some v) ∧
    ((db.GetKV o ns).1.map KV.Key).Nodup ∧
    (db.GetKV o ns).1.length = b.len ∧
    (∀ e : DB, e.db = GoMap.empty →
      (e.SetMap o₁ "ns" ((GoMap.empty.set "a" "1").set "b" "2")).1.GetKV o₂ "ns"
        = ([KV.mk "a" "1", KV.mk "b" "2"], none)) := by
  rw [GetKV_eq o db ns b hb (Nat.pos_iff_ne_zero.1 hlen)]
  refine ⟨b.mem_pairs, ?_, ?_, ?_⟩
  · rw [List.Nodup, List.pairwise_map]
    exact b.pairs_ascending.imp (fun h => ne_of_lt h)
  · simp [Bucket.pairs, GoMap.len]
  · intro e he
    have h1 := SetMap_fresh o₁ e "ns" ((GoMap.empty.set "a" "1").set "b" "2")
      (by rw [he]; rfl) (GoMap.len_set_ne_zero _ _ _)
    rw [GetKV_eq o₂ _ "ns" _ h1 (GoMap.len_set_ne_zero _ _ _)]
    have hba : ¬ "b" < "a" := by rw [String.lt_iff_toList_lt]; decide
    have hne : ¬ "b" = "a" := by decide
    simp [Bucket.pairs, GoMap.set, GoMap.empty, insertEntry, hba, hne]

/-- C3 on the sample store, its bucket visited by descending key. -/
theorem GetKV_exact_witness :
    sampleStore.db.index "ns" = some sampleBucket ∧ 0 < sampleBucket.len ∧
    (∀ k v, KV.mk k v ∈ (sampleStore.GetKV RangeOrder.descending "ns").1 ↔
      sampleBucket.index k = some v) ∧
    ((sampleStore.GetKV RangeOrder.descending "ns").1.map KV.Key).Nodup ∧
    (sampleStore.GetKV RangeOrder.descending "ns").1.length = sampleBucket.len ∧
    (∀ e : DB, e.db = GoMap.empty →
      (e.SetMap RangeOrder.descending "ns" ((GoMap.empty.set "a" "1").set "b" "2")).1.GetKV
        RangeOrder.ascending "ns" = ([KV.mk "a" "1", KV.mk "b" "2"], none)) := by
  have hb : sampleStore.db.index "ns" = some sampleBucket := GoMap.index_set_self _ _ _
  have hlen : 0 < sampleBucket.len := Nat.pos_of_ne_zero (GoMap.len_set_ne_zero _ _ _)
  exact ⟨hb, hlen, GetKV_exact RangeOrder.descending RangeOrder.descending RangeOrder.ascending
    sampleStore "ns" sampleBucket hb hlen⟩

/-- C4: when some key occurs more than once in `kv`, `SetKV(ns, kv)` returns the duplicate-key
error and the store it leaves is the store before the call: no entry of `kv` is merged, in `ns`
or anywhere else. -/
theorem SetKV_duplicate_rejected (o : RangeOrder) (db : DB) (ns : String) (kv : List KV)
    (hdup : ∃ k, 1 < (kv.map KV.Key).count k) :
    db.SetKV o ns kv = (db, some "duplicate key detected") := by
  apply SetKV_of_dup
  intro hnd
  obtain ⟨k, hk⟩ := hdup
  exact absurd (List.nodup_iff_count_le_one.1 hnd k) (Nat.not_le.2 hk)

/-- C4 at `SetKV("ns", [(a,1), (a,2)])` on the sample store. -/
theorem SetKV_duplicate_rejected_witness :
    (∃ k, 1 < ([KV.mk "a" "1", KV.mk "a" "2"].map KV.Key).count k) ∧
    sampleStore.SetKV RangeOrder.ascending "ns" [KV.mk "a" "1", KV.mk "a" "2"]
      = (sampleStore, some "duplicate key detected") := by
  have hdup : ∃ k, 1 < ([KV.mk "a" "1", KV.mk "a" "2"].map KV.Key).count k := ⟨"a", by decide⟩
  exact ⟨hdup, SetKV_duplicate_rejected RangeOrder.ascending sampleStore "ns"
    [KV.mk "a" "1", KV.mk "a" "2"] hdup⟩

/-- C5: `SetKV(ns, kv)` returns an error if and only if two different positions of `kv` hold
the same key; when the keys of `kv` are pairwise distinct it returns no error, and so it does
for the empty sequence. -/
theorem SetKV_error_iff_duplicate (o : RangeOrder) (db : DB) (ns : String) (kv : List KV) :
    ((db.SetKV o ns kv).2 ≠ none ↔
      ∃ (i j : Nat) (x y : KV), i ≠ j ∧ kv[i]? = some x ∧ kv[j]? = some y ∧ x.Key = y.Key) ∧
    ((kv.map KV.Key).Nodup → (db.SetKV o ns kv).2 = none) ∧
    (db.SetKV o ns []).2 = none := by
  have hnd : (kv.map KV.Key).Nodup → (db.SetKV o ns kv).2 = none := by
    intro h
    obtain ⟨m, _, hm⟩ := SetKV_of_nodup o db ns kv h
    rw [hm]
    rfl
  refine ⟨?_, hnd, rfl⟩
  rw [← not_nodup_keys_iff]
  constructor
  · intro h h2
    exact h (hnd h2)
  · intro h
    rw [SetKV_of_dup o db ns kv h]
    exact fun h2 => Option.noConfusion h2

/-- C6: `GetMap(ns)` returns an error exactly when `ns` is absent from the store or its bucket
has zero keys, and otherwise returns the bucket of `ns` and no error; `GetKV(ns)` returns an
error in exactly the same cases. -/
theorem GetMap_GetKV_missing_iff (o : RangeOrder) (db : DB) (ns : String) :
    ((db.GetMap ns).2 ≠ none ↔
      (db.db.index ns = none ∨ ∃ b, db.db.index ns = some b ∧ b.len = 0)) ∧
    (∀ b, db.db.index ns = some b → b.len ≠ 0 → db.GetMap ns = (b, none)) ∧
    ((db.GetKV o ns).2 ≠ none ↔ (db.GetMap ns).2 ≠ none) := by
  unfold DB.GetMap DB.GetKV
  cases h : db.db.index ns with
  | none => simp
  | some b =>
    by_cases h0 : b.len = 0
    · simp [h0]
    · simp [h0]

/-- C7: `Open` with a `nil` config or an empty `Path` succeeds, and on the store it returns, as
on every store reached from it by a sequence of `SetMap`, `SetKV` and `Delete` calls none of
which writes to `ns`, both `GetMap(ns)` and `GetKV(ns)` fail with the error `missing`. -/
theorem never_written_missing (osOpenFile : String → Except String File) (gob : Gob)
    (config : Option Config) (o : RangeOrder) (ns : String) (calls : List Call)
    (hcfg : config = none ∨ config = some { Path := "" })
    (hcalls : ∀ c ∈ calls, c.writes ns = false) :
    ∃ db, Open osOpenFile gob config = (some db, none) ∧
      db.GetMap ns = (GoMap.empty, some "missing") ∧
      db.GetKV o ns = ([], some "missing") ∧
      (runCalls calls db).GetMap ns = (GoMap.empty, some "missing") ∧
      (runCalls calls db).GetKV o ns = ([], some "missing") := by
  refine ⟨_, Open_in_memory osOpenFile gob config hcfg, ?_, ?_, ?_, ?_⟩
  · exact GetMap_absent _ ns rfl
  · exact GetKV_absent o _ ns rfl
  · exact GetMap_absent _ ns (runCalls_absent calls _ ns hcalls rfl)
  · exact GetKV_absent o _ ns (runCalls_absent calls _ ns hcalls rfl)

/-- C7 for `Open(nil)`, namespace `"ns"` and the sample calls. -/
theorem never_written_missing_witness :
    (∀ c ∈ sampleCalls, c.writes "ns" = false) ∧
    ∃ db, Open noFiles nullGob none = (some db, none) ∧
      db.GetMap "ns" = (GoMap.empty, some "missing") ∧
      db.GetKV RangeOrder.ascending "ns" = ([], some "missing") ∧
      (runCalls sampleCalls db).GetMap "ns" = (GoMap.empty, some "missing") ∧
      (runCalls sampleCalls db).GetKV RangeOrder.ascending "ns" = ([], some "missing") := by
  have hcalls : ∀ c ∈ sampleCalls, c.writes "ns" = false := by decide
  exact ⟨hcalls, never_written_missing noFiles nullGob none RangeOrder.ascending "ns" sampleCalls
    (Or.inl rfl) hcalls⟩

/-- C8: after `Delete(ns)` both `GetMap(ns)` and `GetKV(ns)` fail with the error `missing`,
whatever the bucket of `ns` held before. -/
theorem Delete_then_missing (o : RangeOrder) (db : DB) (ns : String) :
    (db.Delete ns).1.GetMap ns = (GoMap.empty, some "missing") ∧
    (db.Delete ns).1.GetKV o ns = ([], some "missing") := by
  have h : (db.Delete ns).1.db.index ns = none := by
    rw [Delete_index]
    simp
  exact ⟨GetMap_absent _ ns h, GetKV_absent o _ ns h⟩

/-- C9: `Delete(ns)` returns no error, and when `ns` is not present in the store the store
after the call is the store before it. -/
theorem Delete_no_error_noop (db : DB) (ns : String) :
    (db.Delete ns).2 = none ∧ (db.db.index ns = none → (db.Delete ns).1 = db) := by
  refine ⟨rfl, ?_⟩
  intro h
  show ({ db with db := db.db.delete ns } : DB) = db
  rw [GoMap.delete_absent db.db ns h]

/-- C10: when the keys of `kv` are pairwise distinct and `m` is the mapping that sends each key
of `kv` to the value paired with it, `SetKV(ns, kv)` and `SetMap(ns, m)` yield the same store and
the same `nil` error, whatever the orders in which the two calls range over their maps. -/
theorem SetKV_eq_SetMap (o₁ o₂ : RangeOrder) (db : DB) (ns : String) (kv : List KV)
    (m : Bucket) (hkv : (kv.map KV.Key).Nodup)
    (hm : ∀ k v, m.index k = some v ↔ KV.mk k v ∈ kv) :
    db.SetKV o₁ ns kv = db.SetMap o₂ ns m ∧ (db.SetMap o₂ ns m).2 = none := by
  refine ⟨?_, rfl⟩
  obtain ⟨m', hc, hs⟩ := SetKV_of_nodup o₁ db ns kv hkv
  have hmm : m' = m := by
    apply GoMap.ext_index
    intro k
    apply Option.ext
    intro v
    rw [Option.mem_def, Option.mem_def, collectKV_index kv GoMap.empty m' hc k v, hm k v,
      GoMap.index_empty]
    simp
  rw [hs, hmm]
  exact Prod.ext ((SetMap_fst o₁ db ns m).trans (SetMap_fst o₂ db ns m).symm) rfl

/-- C10 at `kv = [(c,3), (a,9)]` and `m = {a:9, c:3}` on the sample store. -/
theorem SetKV_eq_SetMap_witness :
    ([KV.mk "c" "3", KV.mk "a" "9"].map KV.Key).Nodup ∧
    (∀ k v, ((GoMap.empty.set "a" "9").set "c" "3").index k = some v ↔
      KV.mk k v ∈ [KV.mk "c" "3", KV.mk "a" "9"]) ∧
    sampleStore.SetKV RangeOrder.ascending "ns" [KV.mk "c" "3", KV.mk "a" "9"]
      = sampleStore.SetMap RangeOrder.descending "ns" ((GoMap.empty.set "a" "9").set "c" "3") ∧
    (sampleStore.SetMap RangeOrder.descending "ns" ((GoMap.empty.set "a" "9").set "c" "3")).2
      = none := by
  have hkv : ([KV.mk "c" "3", KV.mk "a" "9"].map KV.Key).Nodup := by decide
  have hm : ∀ k v, ((GoMap.empty.set "a" "9").set "c" "3").index k = some v ↔
      KV.mk k v ∈ [KV.mk "c" "3", KV.mk "a" "9"] := by
    intro k v
    simp only [GoMap.index_set, GoMap.index_empty, List.mem_cons, List.mem_singleton,
      KV.mk.injEq, List.mem_nil_iff, or_false]
    by_cases hc : k = "c"
    · subst hc
      simp [eq_comm]
    · by_cases ha : k = "a"
      · subst ha
        simp [eq_comm]
      · simp [hc, ha]
  exact ⟨hkv, hm, SetKV_eq_SetMap RangeOrder.ascending RangeOrder.descending sampleStore "ns"
    [KV.mk "c" "3", KV.mk "a" "9"] ((GoMap.empty.set "a" "9").set "c" "3") hkv hm⟩

/-! ## Buckets of reachable stores -/

theorem GoMap.len_ne_zero_of_index {V : Type} (m : GoMap V) (k : String) (v : V)
    (h : m.index k = some v) : m.len ≠ 0 := by
  intro h0
  rw [(GoMap.len_eq_zero m).1 h0, GoMap.index_empty] at h
  exact Option.noConfusion h

theorem GoMap.exists_index_of_len_ne_zero {V : Type} (m : GoMap V) (h : m.len ≠ 0) :
    ∃ k v, m.index k = some v := by
  cases hm : m.entries with
  | nil => exact absurd (by show m.entries.length = 0; rw [hm]; rfl) h
  | cons e t =>
    refine ⟨e.1, e.2, (GoMap.index_eq_some m e.1 e.2).2 ?_⟩
    rw [hm]
    exact List.mem_cons_self _ _

theorem GoMap.merge_len_ne_zero (b m : Bucket) (hm : m.len ≠ 0) : (GoMap.merge b m).len ≠ 0 := by
  obtain ⟨k, v, hkv⟩ := GoMap.exists_index_of_len_ne_zero m hm
  apply GoMap.len_ne_zero_of_index _ k v
  rw [GoMap.index_merge, hkv]

theorem SetMap_noEmptyBucket (o : RangeOrder) (db : DB) (s : String) (m : Bucket)
    (h : db.NoEmptyBucket) : (db.SetMap o s m).1.NoEmptyBucket := by
  rw [SetMap_fst]
  by_cases h0 : m.len = 0
  · simpa only [h0, if_true] using h
  · simp only [h0, if_false]
    intro ns b hb
    by_cases hns : ns = s
    · subst hns
      simp only [GoMap.index_set_self, Option.some.injEq] at hb
      rw [← hb]
      exact GoMap.merge_len_ne_zero _ m h0
    · simp only [GoMap.index_set_other _ _ _ _ hns] at hb
      exact h ns b hb

theorem SetKV_noEmptyBucket (o : RangeOrder) (db : DB) (s : String) (kv : List KV)
    (h : db.NoEmptyBucket) : (db.SetKV o s kv).1.NoEmptyBucket := by
  by_cases hkv : (kv.map KV.Key).Nodup
  · obtain ⟨m, _, hm⟩ := SetKV_of_nodup o db s kv hkv
    rw [hm]
    exact SetMap_noEmptyBucket o db s m h
  · rw [SetKV_of_dup o db s kv hkv]
    exact h

theorem Delete_noEmptyBucket (db : DB) (s : String) (h : db.NoEmptyBucket) :
    (db.Delete s).1.NoEmptyBucket := by
  intro ns b hb
  rw [Delete_index] at hb
  by_cases hns : ns = s
  · simp [hns] at hb
  · simp only [hns, if_false] at hb
    exact h ns b hb

theorem runCalls_noEmptyBucket (calls : List Call) (db : DB) (h : db.NoEmptyBucket) :
    (runCalls calls db).NoEmptyBucket := by
  induction calls generalizing db with
  | nil => exact h
  | cons c cs ih =>
    show (runCalls cs (c.run db)).NoEmptyBucket
    apply ih
    cases c with
    | SetMap o s m => exact SetMap_noEmptyBucket o db s m h
    | SetKV o s kv => exact SetKV_noEmptyBucket o db s kv h
    | Delete s => exact Delete_noEmptyBucket db s h

/-- C11: `Open` with a `nil` config or an empty `Path` succeeds, and in every store reached
from the store it returns by a sequence of `SetMap`, `SetKV` and `Delete` calls, every
namespace present in the mapping has a bucket with at least one entry. -/
theorem reachable_no_empty_bucket (osOpenFile : String → Except String File) (gob : Gob)
    (config : Option Config) (calls : List Call)
    (hcfg : config = none ∨ config = some { Path := "" }) :
    ∃ db, Open osOpenFile gob config = (some db, none) ∧
      ∀ ns b, (runCalls calls db).db.index ns = some b → 0 < b.len := by
  refine ⟨_, Open_in_memory osOpenFile gob config hcfg, ?_⟩
  intro ns b hb
  apply Nat.pos_of_ne_zero
  refine runCalls_noEmptyBucket calls _ ?_ ns b hb
  intro ns' b' hb'
  exact absurd hb' (by simp [emptyStore, GoMap.index_empty])

/-- C11 for `Open(nil)` and calls that write an empty map, write twice and delete. -/
theorem reachable_no_empty_bucket_witness :
    ((none : Option Config) = none ∨ (none : Option Config) = some { Path := "" }) ∧
    ∃ db, Open noFiles nullGob none = (some db, none) ∧
      ∀ ns b, (runCalls writeCalls db).db.index ns = some b → 0 < b.len :=
  ⟨Or.inl rfl, reachable_no_empty_bucket noFiles nullGob none writeCalls (Or.inl rfl)⟩

/-! ## Writes that change nothing, and the bulk round trip -/

theorem GoMap.set_self {V : Type} (m : GoMap V) (k : String) (v : V) (h : m.index k = some v) :
    m.set k v = m := by
  apply GoMap.ext_index
  intro k'
  rw [GoMap.index_set]
  split_ifs with hk
  · rw [hk, h]
  · rfl

theorem GoMap.merge_self (b : Bucket) : GoMap.merge b b = b := by
  apply GoMap.ext_index
  intro k
  rw [GoMap.index_merge]
  cases h : b.index k <;> rfl

theorem GetKV_ok (o : RangeOrder) (db : DB) (ns : String) (r : List KV)
    (h : db.GetKV o ns = (r, none)) :
    ∃ b, db.db.index ns = some b ∧ b.len ≠ 0 ∧ r = b.pairs := by
  cases hb : db.db.index ns with
  | none =>
    rw [GetKV_absent o db ns hb] at h
    exact absurd (congrArg Prod.snd h) (by simp)
  | some b =>
    by_cases h0 : b.len = 0
    · have hm : db.GetKV o ns = ([], some "missing") := by
        unfold DB.GetKV
        simp [hb, h0]
      rw [hm] at h
      exact absurd (congrArg Prod.snd h) (by simp)
    · rw [GetKV_eq o db ns b hb h0] at h
      exact ⟨b, rfl, h0, (congrArg Prod.fst h).symm⟩

theorem collectKV_pairs (b : Bucket) : collectKV b.pairs GoMap.empty = some b := by
  have hnd : (b.pairs.map KV.Key).Nodup := by
    rw [List.Nodup, List.pairwise_map]
    exact b.pairs_ascending.imp (fun h => ne_of_lt h)
  have h : (collectKV b.pairs GoMap.empty).isSome = true :=
    (collectKV_isSome b.pairs GoMap.empty).2 ⟨hnd, fun _ _ => rfl⟩
  obtain ⟨m, hm⟩ := Option.isSome_iff_exists.1 h
  rw [hm, Option.some.injEq]
  apply GoMap.ext_index
  intro k
  apply Option.ext
  intro v
  rw [Option.mem_def, Option.mem_def, collectKV_index b.pairs GoMap.empty m hm k v,
    b.mem_pairs, GoMap.index_empty]
  simp

/-- Writing back the sorted view of a bucket changes nothing. -/
theorem SetKV_pairs (o : RangeOrder) (db : DB) (ns : String) (b : Bucket)
    (hb : db.db.index ns = some b) (h0 : b.len ≠ 0) : db.SetKV o ns b.pairs = (db, none) := by
  have hs : db.SetKV o ns b.pairs = db.SetMap o ns b := by
    unfold DB.SetKV DB.SetMap
    rw [collectKV_pairs]
  rw [hs]
  refine Prod.ext ?_ rfl
  rw [SetMap_fst]
  simp only [h0, if_false, hb, Option.getD_some, GoMap.merge_self, GoMap.set_self _ _ _ hb]

/-- A batch with strictly ascending keys is the sorted view of the map collected from it. -/
theorem collectKV_ascending (kv : List KV) (hasc : kv.Pairwise (fun a b => a.Key < b.Key)) :
    ∃ m, collectKV kv GoMap.empty = some m ∧ m.pairs = kv := by
  have hnd : (kv.map KV.Key).Nodup := by
    rw [List.Nodup, List.pairwise_map]
    exact hasc.imp (fun h => ne_of_lt h)
  have h : (collectKV kv GoMap.empty).isSome = true :=
    (collectKV_isSome kv GoMap.empty).2 ⟨hnd, fun _ _ => rfl⟩
  obtain ⟨m, hm⟩ := Option.isSome_iff_exists.1 h
  refine ⟨m, hm, ?_⟩
  apply ascendingKV_unique _ _ m.pairs_ascending hasc
  have hnd₁ : m.pairs.Nodup := m.pairs_ascending.imp (fun h heq => by
    rw [heq] at h
    exact lt_irrefl _ h)
  have hnd₂ : kv.Nodup := hasc.imp (fun h heq => by
    rw [heq] at h
    exact lt_irrefl _ h)
  rw [List.perm_ext_iff_of_nodup hnd₁ hnd₂]
  intro x
  cases x with
  | mk k v =>
    rw [m.mem_pairs, collectKV_index kv GoMap.empty m hm k v, GoMap.index_empty]
    simp

/-- C18: for two distinct namespaces `s` and `t`, each of `SetMap(s, m)`, `SetKV(s, kv)`
(whether it succeeds or fails) and `Delete(s)` leaves the presence of `t` in the store and the
bucket of `t` unchanged. -/
theorem mutators_frame (o₁ o₂ : RangeOrder) (db : DB) (s t : String) (m : Bucket)
    (kv : List KV) (hst : s ≠ t) :
    (db.SetMap o₁ s m).1.db.index t = db.db.index t ∧
    (db.SetKV o₂ s kv).1.db.index t = db.db.index t ∧
    (db.Delete s).1.db.index t = db.db.index t := by
  have hts : t ≠ s := fun h => hst h.symm
  refine ⟨SetMap_index_other o₁ db s t m hts, SetKV_index_other o₂ db s t kv hts, ?_⟩
  rw [Delete_index]
  simp [hts]

/-- C18 on the sample store for writes to and the deletion of `"other"`, read at `"ns"`. -/
theorem mutators_frame_witness :
    "other" ≠ "ns" ∧
    (sampleStore.SetMap RangeOrder.descending "other" sampleBucket).1.db.index "ns"
      = sampleStore.db.index "ns" ∧
    (sampleStore.SetKV RangeOrder.ascending "other" [KV.mk "a" "1", KV.mk "a" "2"]).1.db.index
      "ns" = sampleStore.db.index "ns" ∧
    (sampleStore.Delete "other").1.db.index "ns" = sampleStore.db.index "ns" := by
  have hst : "other" ≠ "ns" := by decide
  exact ⟨hst, mutators_frame RangeOrder.descending RangeOrder.ascending sampleStore "other" "ns"
    sampleBucket [KV.mk "a" "1", KV.mk "a" "2"] hst⟩

/-- C19: `SetMap(ns, {})` and `SetKV(ns, [])` return no error and leave the store as it was;
when `ns` was absent it is still absent afterwards and `GetMap(ns)` still fails with the error
`missing`. -/
theorem empty_write_noop (o : RangeOrder) (db : DB) (ns : String) :
    db.SetMap o ns GoMap.empty = (db, none) ∧
    db.SetKV o ns [] = (db, none) ∧
    (db.db.index ns = none →
      (db.SetMap o ns GoMap.empty).1.db.index ns = none ∧
      (db.SetKV o ns []).1.db.index ns = none ∧
      (db.SetMap o ns GoMap.empty).1.GetMap ns = (GoMap.empty, some "missing") ∧
      (db.SetKV o ns []).1.GetMap ns = (GoMap.empty, some "missing")) := by
  have h1 : db.SetMap o ns GoMap.empty = (db, none) := by
    refine Prod.ext ?_ rfl
    rw [SetMap_fst]
    simp [GoMap.len, GoMap.empty]
  have h2 : db.SetKV o ns [] = (db, none) := by
    have hs : db.SetKV o ns [] = db.SetMap o ns GoMap.empty := by
      unfold DB.SetKV DB.SetMap
      rfl
    rw [hs, h1]
  refine ⟨h1, h2, ?_⟩
  intro hns
  rw [h1, h2]
  exact ⟨hns, hns, GetMap_absent db ns hns, GetMap_absent db ns hns⟩

/-- C20: on a store without namespace `ns`, `SetKV(ns, kv)` with a non-empty `kv` whose keys
are strictly ascending returns no error and a following `GetKV(ns)` returns exactly `kv`;
conversely, when `GetKV(ns)` succeeds with result `r`, `SetKV(ns, r)` returns no error and leaves
the store as it was. -/
theorem SetKV_GetKV_roundtrip (o₁ o₂ : RangeOrder) (db : DB) (ns : String) (kv : List KV) :
    (db.db.index ns = none → kv ≠ [] → kv.Pairwise (fun a b => a.Key < b.Key) →
      (db.SetKV o₁ ns kv).2 = none ∧ (db.SetKV o₁ ns kv).1.GetKV o₂ ns = (kv, none)) ∧
    (∀ r, db.GetKV o₁ ns = (r, none) → db.SetKV o₂ ns r = (db, none)) := by
  constructor
  · intro hns hne hasc
    obtain ⟨m, hm, hp⟩ := collectKV_ascending kv hasc
    have hs : db.SetKV o₁ ns kv = db.SetMap o₁ ns m := by
      unfold DB.SetKV DB.SetMap
      rw [hm]
    have h0 : m.len ≠ 0 := by
      intro h0
      apply hne
      rw [← hp, (GoMap.len_eq_zero m).1 h0]
      rfl
    rw [hs]
    refine ⟨rfl, ?_⟩
    rw [GetKV_eq o₂ _ ns m (SetMap_fresh o₁ db ns m hns h0) h0, hp]
  · intro r hr
    obtain ⟨b, hb, h0, hrb⟩ := GetKV_ok o₁ db ns r hr
    rw [hrb]
    exact SetKV_pairs o₂ db ns b hb h0

/-- C20 at `kv = [(a,1), (b,2)]` written to `"bulk"` on the sample store, and at the sorted
view of `"ns"` written back. -/
theorem SetKV_GetKV_roundtrip_witness :
    ((sampleStore.SetKV RangeOrder.descending "bulk" [KV.mk "a" "1", KV.mk "b" "2"]).2 = none ∧
      (sampleStore.SetKV RangeOrder.descending "bulk" [KV.mk "a" "1", KV.mk "b" "2"]).1.GetKV
        RangeOrder.descending "bulk" = ([KV.mk "a" "1", KV.mk "b" "2"], none)) ∧
    sampleStore.SetKV RangeOrder.ascending "ns" sampleBucket.pairs = (sampleStore, none) := by
  have h := SetKV_GetKV_roundtrip RangeOrder.descending RangeOrder.descending sampleStore "bulk"
    [KV.mk "a" "1", KV.mk "b" "2"]
  have h2 := SetKV_GetKV_roundtrip RangeOrder.descending RangeOrder.ascending sampleStore "ns" []
  have hab : "a" < "b" := by rw [String.lt_iff_toList_lt]; decide
  have hns : sampleStore.db.index "bulk" = none := by
    simp [sampleStore, GoMap.index_set, GoMap.index_empty]
  refine ⟨h.1 hns (by simp) (List.pairwise_pair.2 hab), ?_⟩
  apply h2.2
  exact GetKV_eq RangeOrder.descending sampleStore "ns" sampleBucket
    (GoMap.index_set_self _ _ _) (GoMap.len_set_ne_zero _ _ _)

/-! ## Saving and closing -/

theorem Save_db (gob : Gob) (db : DB) : (db.Save gob).1.db = db.db := by
  unfold DB.Save
  split_ifs
  · cases gob.Encode db.db with
    | error e => rfl
    | ok b =>
      simp only
      split <;> rfl
  · rfl

theorem Save_config (gob : Gob) (db : DB) : (db.Save gob).1.config = db.config := by
  unfold DB.Save
  split_ifs
  · cases gob.Encode db.db with
    | error e => rfl
    | ok b =>
      simp only
      split <;> rfl
  · rfl

theorem closeFile_db (gob : Gob) (db : DB) : (db.closeFile gob).1.db = db.db := by
  have h1 := Save_db gob db
  unfold DB.closeFile
  split
  · next d e hs =>
    rw [hs] at h1
    exact h1
  · next d hs =>
    rw [hs] at h1
    simp only at h1
    split_ifs
    · split
      · exact h1
      · split <;> exact h1
    · exact h1

theorem Close_store_db (gob : Gob) (db : DB) : (db.Close gob).store.db = db.db := by
  have h := closeFile_db gob db
  unfold DB.Close
  split
  · next d e hs =>
    rw [hs] at h
    exact h
  · next d hs =>
    rw [hs] at h
    exact h

theorem Save_in_memory (gob : Gob) (db : DB) (h : db.config.Path = "") :
    db.Save gob = (db, none) := by
  unfold DB.Save
  simp [h]

theorem Save_ok (gob : Gob) (db : DB) (f : File) (enc : List Nat)
    (hp : db.config.Path ≠ "") (hf : db.file = some f)
    (henc : gob.Encode db.db = Except.ok enc) (hs : (db.Save gob).2 = none) :
    f.closed = false ∧
    db.Save gob =
      ({ db with file := some { f with bytes := enc ++ f.bytes.drop enc.length } }, none) := by
  unfold DB.Save at hs ⊢
  simp only [hp, ne_eq, not_false_eq_true, if_true, henc, hf, File.WriteAt] at hs ⊢
  cases hc : f.closed with
  | true => simp [hc] at hs
  | false => simp [hc]

theorem Close_err (gob : Gob) (db : DB) : (db.Close gob).err = (db.closeFile gob).2 := by
  unfold DB.Close
  split
  · next d e hs => rw [hs]
  · next d hs => rw [hs]

theorem Close_store (gob : Gob) (db : DB) : (db.Close gob).store = (db.closeFile gob).1 := by
  unfold DB.Close
  split
  · next d e hs => rw [hs]
  · next d hs => rw [hs]

/-- A `Close` without error on a file-backed store wrote the encoding over the start of the
file and closed the handle. -/
theorem closeFile_ok (gob : Gob) (db : DB) (hp : db.config.Path ≠ "")
    (h : (db.closeFile gob).2 = none) :
    ∃ enc f, gob.Encode db.db = Except.ok enc ∧ db.file = some f ∧ f.closed = false ∧
      (db.closeFile gob).1 =
        { db with file := some { bytes := enc ++ f.bytes.drop enc.length, closed := true } } := by
  unfold DB.closeFile DB.Save at h ⊢
  simp only [hp, ne_eq, not_false_eq_true, if_true] at h ⊢
  cases henc : gob.Encode db.db with
  | error e => simp [henc] at h
  | ok enc =>
    cases hf : db.file with
    | none => simp [henc, hf, File.WriteAt] at h
    | some f =>
      cases hc : f.closed with
      | true => simp [henc, hf, File.WriteAt, hc] at h
      | false =>
        refine ⟨enc, f, rfl, rfl, hc, ?_⟩
        simp [hp, File.WriteAt, File.Sync, File.Close, hc]

/-- C13: in in-memory mode (the configured `Path` is empty) `Save` returns no error and leaves
the store, that is the mapping, the configuration and the absent file, as it was; in any mode
the mapping and the configuration after `Save` are those before it, whether `Save` succeeds or
fails. -/
theorem Save_keeps_mapping (gob : Gob) (db : DB) :
    (db.config.Path = "" → db.Save gob = (db, none)) ∧
    (db.Save gob).1.db = db.db ∧
    (db.Save gob).1.config = db.config :=
  ⟨Save_in_memory gob db, Save_db gob db, Save_config gob db⟩

/-- C13 on the in-memory sample store and, for a failing `Save`, on the file-backed sample
store after its file was closed. -/
theorem Save_keeps_mapping_witness :
    sampleStore.Save twoByteGob = (sampleStore, none) ∧
    ((fileStore.Close twoByteGob).store.Save twoByteGob).2 = some "file already closed" ∧
    ((fileStore.Close twoByteGob).store.Save twoByteGob).1.db = fileStore.db :=
  ⟨(Save_keeps_mapping twoByteGob sampleStore).1 rfl, rfl,
    ((Save_keeps_mapping twoByteGob (fileStore.Close twoByteGob).store).2.1).trans
      (Close_store_db twoByteGob fileStore)⟩

/-- C17: when the file of a file-backed store holds the bytes `old` and the encoding of the
mapping is `enc`, a successful `Save` leaves the file holding `enc` followed by the bytes of
`old` from position `length enc` on; its length is the larger of the two lengths, so the file
is never shortened. -/
theorem Save_overwrites_prefix (gob : Gob) (db : DB) (f : File) (enc : List Nat)
    (hp : db.config.Path ≠ "") (hf : db.file = some f)
    (henc : gob.Encode db.db = Except.ok enc) (hs : (db.Save gob).2 = none) :
    ∃ g, (db.Save gob).1.file = some g ∧
      g.bytes = enc ++ f.bytes.drop enc.length ∧
      g.bytes.length = max f.bytes.length enc.length := by
  rw [(Save_ok gob db f enc hp hf henc hs).2]
  refine ⟨_, rfl, rfl, ?_⟩
  simp only [List.length_append, List.length_drop]
  omega

/-- C17 on the file-backed sample store: two bytes written over a file of four. -/
theorem Save_overwrites_prefix_witness :
    fileStore.config.Path ≠ "" ∧
    fileStore.file = some { bytes := [9, 9, 9, 9], closed := false } ∧
    twoByteGob.Encode fileStore.db = Except.ok [1, 2] ∧
    (fileStore.Save twoByteGob).2 = none ∧
    ∃ g, (fileStore.Save twoByteGob).1.file = some g ∧
      g.bytes = [1, 2] ++ [9, 9, 9, 9].drop [1, 2].length ∧
      g.bytes.length = max [9, 9, 9, 9].length [1, 2].length := by
  have hp : fileStore.config.Path ≠ "" := by decide
  exact ⟨hp, rfl, rfl, rfl, Save_overwrites_prefix twoByteGob fileStore
    { bytes := [9, 9, 9, 9], closed := false } [1, 2] hp rfl rfl rfl⟩

/-- C12 (fails on the code): `Close` never changes the mapping of the store that the caller
holds, and neither does the teardown closure. On the in-memory sample store both return no
error and `GetMap("ns")` afterwards still returns the bucket `{a:1, b:2}` and no error. -/
theorem Close_keeps_store :
    (∀ (gob : Gob) (db : DB), (db.Close gob).store.db = db.db) ∧
    (sampleStore.Close nullGob).err = none ∧
    (sampleStore.Close nullGob).store = sampleStore ∧
    (sampleStore.Close nullGob).store.GetMap "ns" = (sampleBucket, none) ∧
    (teardown nullGob sampleStore Captured.shared).err = none ∧
    (teardown nullGob sampleStore Captured.shared).store = sampleStore ∧
    (teardown nullGob sampleStore Captured.shared).store.GetMap "ns" = (sampleBucket, none) := by
  have hget : sampleStore.GetMap "ns" = (sampleBucket, none) := by
    unfold DB.GetMap
    have hb : sampleStore.db.index "ns" = some sampleBucket := GoMap.index_set_self _ _ _
    have h0 : sampleBucket.len ≠ 0 := GoMap.len_set_ne_zero _ _ _
    simp [hb, h0]
  exact ⟨Close_store_db, rfl, rfl, hget, rfl, rfl, hget⟩

/-- C14 (fails on the code): on a file-backed store a `Close` that follows a `Close` without
error returns the error of writing to a closed file. So it does on the file-backed sample
store, whose first `Close` returns no error. -/
theorem Close_twice_fails :
    (∀ (gob : Gob) (db : DB), db.config.Path ≠ "" → (db.Close gob).err = none →
      ((db.Close gob).store.Close gob).err = some "file already closed") ∧
    (fileStore.Close twoByteGob).err = none ∧
    ((fileStore.Close twoByteGob).store.Close twoByteGob).err = some "file already closed" := by
  refine ⟨?_, rfl, rfl⟩
  intro gob db hp h1
  rw [Close_err] at h1
  obtain ⟨enc, f, henc, hf, _, hc⟩ := closeFile_ok gob db hp h1
  rw [Close_err, Close_store, hc]
  unfold DB.closeFile DB.Save
  simp [hp, henc, File.WriteAt]

/-! ## Round trip of the snapshot codec -/

theorem decodeNat_encodeNatAux (fuel n : Nat) (h : n ≤ fuel) (rest : List Nat) :
    decodeNat (encodeNatAux fuel n ++ rest) = some (n, rest) := by
  induction fuel generalizing n with
  | zero =>
    have hn : n = 0 := Nat.le_zero.1 h
    subst hn
    simp [encodeNatAux, decodeNat]
  | succ fuel ih =>
    simp only [encodeNatAux]
    split_ifs with hlt
    · simp [decodeNat, hlt]
    · have hdiv : n / 128 ≤ fuel := by omega
      have hb : ¬ 128 + n % 128 < 128 := by omega
      have hrec := ih (n / 128) hdiv
      show decodeNat ((128 + n % 128) :: (encodeNatAux fuel (n / 128) ++ rest)) = _
      rw [decodeNat, if_neg hb, hrec]
      simp only [Option.some.injEq, Prod.mk.injEq, and_true]
      omega

theorem decodeNat_encodeNat (n : Nat) (rest : List Nat) :
    decodeNat (encodeNat n ++ rest) = some (n, rest) :=
  decodeNat_encodeNatAux n n (Nat.le_refl n) rest

theorem decodeMany_flatMap {α : Type} (item : List Nat → Option (α × List Nat))
    (enc : α → List Nat) (l : List α)
    (h : ∀ x ∈ l, ∀ rest, item (enc x ++ rest) = some (x, rest)) (rest : List Nat) :
    decodeMany item l.length (l.flatMap enc ++ rest) = some (l, rest) := by
  induction l with
  | nil => rfl
  | cons x xs ih =>
    simp only [List.length_cons, List.flatMap_cons, List.append_assoc, decodeMany,
      h x (List.mem_cons_self _ _),
      ih (fun y hy => h y (List.mem_cons_of_mem _ hy))]

theorem decodeChar_encode (c : Char) (rest : List Nat) :
    decodeChar (encodeNat c.toNat ++ rest) = some (c, rest) := by
  simp only [decodeChar, decodeNat_encodeNat, Char.ofNat_toNat]

theorem decodeString_encodeString (s : String) (rest : List Nat) :
    decodeString (encodeString s ++ rest) = some (s, rest) := by
  simp only [decodeString, encodeString, List.append_assoc, decodeNat_encodeNat,
    decodeMany_flatMap decodeChar (fun c => encodeNat c.toNat) s.data
      (fun c _ r => decodeChar_encode c r)]

theorem decodeEntry_encodeEntry (e : String × String) (rest : List Nat) :
    decodeEntry (encodeEntry e ++ rest) = some (e, rest) := by
  simp only [decodeEntry, encodeEntry, List.append_assoc, decodeString_encodeString]

theorem index_foldl_set {V : Type} (l : List (String × V)) (hl : (l.map Prod.fst).Nodup)
    (m : GoMap V) (k : String) :
    (l.foldl (fun m e => m.set e.1 e.2) m).index k =
      match lookupEntry k l with
      | some v => some v
      | none => m.index k := by
  induction l generalizing m with
  | nil => rfl
  | cons e t ih =>
    rw [List.map_cons, List.nodup_cons] at hl
    rw [List.foldl_cons, ih hl.2]
    simp only [lookupEntry]
    by_cases h : k = e.1
    · have hn : lookupEntry k t = none := by
        rw [lookupEntry_eq_none]
        intro a ha h2
        exact hl.1 (by rw [← h, ← h2]; exact List.mem_map_of_mem Prod.fst ha)
      rw [hn, h, GoMap.index_set_self]
      simp
    · simp only [h, if_false, GoMap.index_set_other _ _ _ _ h]

/-- Assigning the entries of a map into the empty map rebuilds the map. -/
theorem foldl_set_entries {V : Type} (m : GoMap V) :
    m.entries.foldl (fun m e => m.set e.1 e.2) GoMap.empty = m := by
  apply GoMap.ext_index
  intro k
  rw [index_foldl_set _ (ascending_keys_nodup _ m.ascending)]
  show (match m.index k with
    | some v => some v
    | none => none) = m.index k
  cases m.index k <;> rfl

theorem decodeBucket_encodeBucket (b : Bucket) (rest : List Nat) :
    decodeBucket (encodeBucket b ++ rest) = some (b, rest) := by
  simp only [decodeBucket, encodeBucket, List.append_assoc, decodeNat_encodeNat,
    decodeMany_flatMap decodeEntry encodeEntry b.entries
      (fun e _ r => decodeEntry_encodeEntry e r), foldl_set_entries]

theorem decodeNamespace_encodeNamespace (e : String × Bucket) (rest : List Nat) :
    decodeNamespace (encodeNamespace e ++ rest) = some (e, rest) := by
  simp only [decodeNamespace, encodeNamespace, List.append_assoc, decodeString_encodeString,
    decodeBucket_encodeBucket]

theorem decodeStore_encodeStore (m : GoMap Bucket) (rest : List Nat) :
    decodeStore (encodeStore m ++ rest) GoMap.empty = some m := by
  simp only [decodeStore, encodeStore, List.append_assoc, decodeNat_encodeNat,
    decodeMany_flatMap decodeNamespace encodeNamespace m.entries
      (fun e _ r => decodeNamespace_encodeNamespace e r), foldl_set_entries]

theorem snapshotCodec_lossless : snapshotCodec.Lossless := by
  intro m
  refine ⟨encodeStore m, rfl, ?_⟩
  intro rest
  show (match decodeStore (encodeStore m ++ rest) GoMap.empty with
    | none => Except.error "unexpected EOF"
    | some m => Except.ok m) = Except.ok m
  rw [decodeStore_encodeStore]

/-- C15: the snapshot codec round-trips: for every mapping of namespaces to buckets, the
mapping without namespaces included, decoding the bytes produced by encoding it, into an empty
mapping, yields the mapping again. -/
theorem codec_roundtrip (m : GoMap Bucket) :
    (∃ b, snapshotCodec.Encode m = Except.ok b ∧
      snapshotCodec.Decode b GoMap.empty = Except.ok m) ∧
    (∃ b, snapshotCodec.Encode GoMap.empty = Except.ok b ∧
      snapshotCodec.Decode b GoMap.empty = Except.ok (GoMap.empty : GoMap Bucket)) := by
  have h : ∀ m : GoMap Bucket, ∃ b, snapshotCodec.Encode m = Except.ok b ∧
      snapshotCodec.Decode b GoMap.empty = Except.ok m := by
    intro m
    obtain ⟨b, hb, hd⟩ := snapshotCodec_lossless m
    refine ⟨b, hb, ?_⟩
    have := hd []
    rwa [List.append_nil] at this
  exact ⟨h m, h GoMap.empty⟩

/-! ## Saving and reopening -/

theorem Lossless_encode_ne_nil (gob : Gob) (hgob : gob.Lossless) (m : GoMap Bucket)
    (b : List Nat) (hb : gob.Encode m = Except.ok b) : b ≠ [] := by
  intro hnil
  subst hnil
  obtain ⟨b₁, hb₁, hd₁⟩ := hgob m
  rw [hb] at hb₁
  have hb₁nil : b₁ = [] := (Except.ok.inj hb₁).symm
  subst hb₁nil
  have key : ∀ m', m' = m := by
    intro m'
    obtain ⟨b₂, _, hd₂⟩ := hgob m'
    have h1 := hd₁ b₂
    have h2 := hd₂ []
    rw [List.append_nil] at h2
    rw [List.nil_append, h2] at h1
    exact Except.ok.inj h1
  have h1 := key GoMap.empty
  have h2 := key (GoMap.empty.set "a" GoMap.empty)
  have h3 : (GoMap.empty.set "a" GoMap.empty : GoMap Bucket).index "a" = none := by
    rw [h2, ← h1]
    rfl
  rw [GoMap.index_set_self] at h3
  exact Option.noConfusion h3

theorem Open_file (osOpenFile : String → Except String File) (gob : Gob) (cfg : Config)
    (f : File) (hp : cfg.Path ≠ "") (ho : osOpenFile cfg.Path = Except.ok f) :
    Open osOpenFile gob (some cfg) =
      match DB.load gob { db := GoMap.empty, config := cfg, file := some f } with
      | (_, some e) => (none, some e)
      | (db, none) => (some db, none) := by
  unfold Open
  simp only [hp, ne_eq, not_false_eq_true, if_true, ho]

/-- Loading a file that starts with the encoding of `m`. -/
theorem load_snapshot (gob : Gob) (hgob : gob.Lossless) (cfg : Config) (m : GoMap Bucket)
    (b rest : List Nat) (hb : gob.Encode m = Except.ok b) :
    DB.load gob
        { db := GoMap.empty
          config := cfg
          file := some { bytes := b ++ rest, closed := false } } =
      ({ db := m, config := cfg, file := some { bytes := b ++ rest, closed := false } },
        none) := by
  have hne := Lossless_encode_ne_nil gob hgob m b hb
  obtain ⟨b', hb', hd⟩ := hgob m
  rw [hb] at hb'
  have hbb : b' = b := (Except.ok.inj hb').symm
  subst hbb
  unfold DB.load
  simp [File.Stat, hne, hd rest]

/-- Loading a new, zero-byte file. -/
theorem load_new (gob : Gob) (hgob : gob.Lossless) (cfg : Config) :
    ∃ b, gob.Encode GoMap.empty = Except.ok b ∧
      DB.load gob
          { db := GoMap.empty
            config := cfg
            file := some { bytes := [], closed := false } } =
        ({ db := GoMap.empty, config := cfg, file := some { bytes := b, closed := false } },
          none) := by
  obtain ⟨b, hb, hd⟩ := hgob GoMap.empty
  refine ⟨b, hb, ?_⟩
  have h := hd []
  rw [List.append_nil] at h
  unfold DB.load DB.init
  simp [File.Stat, File.WriteAt, File.Sync, hb, h]

theorem Call.run_config_file (c : Call) (db : DB) :
    (c.run db).config = db.config ∧ (c.run db).file = db.file := by
  cases c with
  | SetMap o s m =>
    show (db.SetMap o s m).1.config = db.config ∧ (db.SetMap o s m).1.file = db.file
    rw [SetMap_fst]
    split_ifs <;> exact ⟨rfl, rfl⟩
  | SetKV o s kv =>
    show (db.SetKV o s kv).1.config = db.config ∧ (db.SetKV o s kv).1.file = db.file
    by_cases hkv : (kv.map KV.Key).Nodup
    · obtain ⟨m, _, hm⟩ := SetKV_of_nodup o db s kv hkv
      rw [hm, SetMap_fst]
      split_ifs <;> exact ⟨rfl, rfl⟩
    · rw [SetKV_of_dup o db s kv hkv]
      exact ⟨rfl, rfl⟩
  | Delete s => exact ⟨rfl, rfl⟩

theorem runCalls_config_file (calls : List Call) (db : DB) :
    (runCalls calls db).config = db.config ∧ (runCalls calls db).file = db.file := by
  induction calls generalizing db with
  | nil => exact ⟨rfl, rfl⟩
  | cons c cs ih =>
    show (runCalls cs (c.run db)).config = db.config ∧ (runCalls cs (c.run db)).file = db.file
    rw [(ih (c.run db)).1, (ih (c.run db)).2]
    exact Call.run_config_file c db

/-- A store with an open file whose `Save` succeeds can be reopened from the bytes saved. -/
theorem reopen_saved (gob : Gob) (hgob : gob.Lossless) (cfg : Config) (hp : cfg.Path ≠ "")
    (db saved : DB) (f : File) (hcfg : db.config = cfg) (hf : db.file = some f)
    (hs : db.Save gob = (saved, none)) :
    ∃ g, saved.file = some g ∧
      ∀ osReopen : String → Except String File,
        osReopen cfg.Path = Except.ok { bytes := g.bytes, closed := false } →
        ∃ db', Open osReopen gob (some cfg) = (some db', none) ∧ db'.db = db.db := by
  obtain ⟨enc, henc, _⟩ := hgob db.db
  have hp' : db.config.Path ≠ "" := by rw [hcfg]; exact hp
  have hok := Save_ok gob db f enc hp' hf henc (by rw [hs])
  rw [hs] at hok
  have hsaved := congrArg Prod.fst hok.2
  simp only at hsaved
  refine ⟨{ f with bytes := enc ++ f.bytes.drop enc.length }, by rw [hsaved], ?_⟩
  intro osReopen ho
  refine ⟨
    { db := db.db
      config := cfg
      file := some { bytes := enc ++ f.bytes.drop enc.length, closed := false } }, ?_, rfl⟩
  rw [Open_file osReopen gob cfg _ hp ho, load_snapshot gob hgob cfg db.db enc _ henc]

/-- C16: with a lossless codec, a file-backed store can be opened on a path whose file is new
(zero bytes) or starts with an earlier snapshot, and after any sequence of writes, once `Save`
returned no error, opening a fresh store on the bytes that the file then holds succeeds and
yields the mapping of the saved store, whatever stale bytes follow the new snapshot. -/
theorem Save_reopen (osOpenFile : String → Except String File) (gob : Gob) (cfg : Config)
    (f : File) (hgob : gob.Lossless) (hp : cfg.Path ≠ "")
    (ho : osOpenFile cfg.Path = Except.ok f) (hc : f.closed = false)
    (hf : f.bytes = [] ∨ ∃ m b rest, gob.Encode m = Except.ok b ∧ f.bytes = b ++ rest) :
    ∃ db, Open osOpenFile gob (some cfg) = (some db, none) ∧
      ∀ (calls : List Call) (saved : DB), (runCalls calls db).Save gob = (saved, none) →
        ∃ g, saved.file = some g ∧
          ∀ osReopen : String → Except String File,
            osReopen cfg.Path = Except.ok { bytes := g.bytes, closed := false } →
            ∃ db', Open osReopen gob (some cfg) = (some db', none) ∧
              db'.db = (runCalls calls db).db := by
  have hfile : f = { bytes := f.bytes, closed := false } := by
    cases f
    simp only at hc
    rw [hc]
  have hopen : ∃ db, Open osOpenFile gob (some cfg) = (some db, none) ∧ db.config = cfg ∧
      ∃ g, db.file = some g := by
    rw [Open_file osOpenFile gob cfg f hp ho, hfile]
    rcases hf with hnil | ⟨m, b, rest, hb, hbytes⟩
    · obtain ⟨b, _, hl⟩ := load_new gob hgob cfg
      rw [hnil, hl]
      exact ⟨_, rfl, rfl, _, rfl⟩
    · rw [hbytes, load_snapshot gob hgob cfg m b rest hb]
      exact ⟨_, rfl, rfl, _, rfl⟩
  obtain ⟨db, hdb, hcfg, g, hg⟩ := hopen
  refine ⟨db, hdb, ?_⟩
  intro calls saved hs
  have hcf := runCalls_config_file calls db
  exact reopen_saved gob hgob cfg hp (runCalls calls db) saved g (by rw [hcf.1, hcfg])
    (by rw [hcf.2, hg]) hs

/-- C16 for the snapshot codec and a new file at `"db.gob"`. -/
theorem Save_reopen_witness :
    snapshotCodec.Lossless ∧
    ∃ db, Open (fun _ => Except.ok { bytes := [], closed := false }) snapshotCodec
        (some { Path := "db.gob" }) = (some db, none) ∧
      ∀ (calls : List Call) (saved : DB),
        (runCalls calls db).Save snapshotCodec = (saved, none) →
        ∃ g, saved.file = some g ∧
          ∀ osReopen : String → Except String File,
            osReopen "db.gob" = Except.ok { bytes := g.bytes, closed := false } →
            ∃ db', Open osReopen snapshotCodec (some { Path := "db.gob" }) = (some db', none) ∧
              db'.db = (runCalls calls db).db :=
  ⟨snapshotCodec_lossless,
    Save_reopen (fun _ => Except.ok { bytes := [], closed := false }) snapshotCodec
      { Path := "db.gob" } { bytes := [], closed := false } snapshotCodec_lossless
      (by decide) rfl rfl (Or.inl rfl)⟩

end Mdb
